import Mathlib

/-!
Shallow embedding of the channel-check-tool core (`src/cct.py`) and proofs
about it.  Machine floats are modelled by exact rationals (`ℚ`); dB values,
which the code obtains as `20·log10(peak)` with `-inf` for zero magnitude,
are modelled directly in `WithBot ℚ` (`⊥` standing for `-inf`), which is
faithful because `20·log10` is a strictly monotone bijection from positive
magnitudes onto the reals — it commutes with taking maxima and preserves all
order comparisons, and the code only ever compares dB values with the
threshold.  Optional values (`None`) are modelled with `Option`, raised
exceptions with `Except String` carrying the exception message.
-/

namespace CCT

/-- ASCII lower-casing of one character (Python `str.lower`; the role and
net-type vocabulary of the tool is ASCII). -/
def lowerChar (c : Char) : Char :=
  if 'A' ≤ c ∧ c ≤ 'Z' then Char.ofNat (c.toNat + 32) else c

/-- Python `str.lower` on the strings this tool handles. -/
def pyLower (s : String) : String := String.mk (s.data.map lowerChar)

/-- The whitespace set of Python `str.strip()` (ASCII part). -/
def pyWS (c : Char) : Bool :=
  c = ' ' || c = '\t' || c = '\n' || c = '\r' || c = '\x0b' || c = '\x0c'

/-- Python `str.strip()`: drop leading and trailing whitespace. -/
def pyStrip (s : String) : String :=
  String.mk (((s.data.dropWhile pyWS).reverse.dropWhile pyWS).reverse)

/-- Dataclass `PortMetadata` of `cct.py`. -/
structure PortMetadata where
  sequence : Nat
  name : String
  component : String
  component_role : String
  net : String
  net_type : String
  pair : Option String := none
  polarity : Option String := none
deriving DecidableEq, Repr

/-- `_normalize_role` of `cct.py`.  `None` and the empty string are falsy in
Python, hence map to `"unknown"`; otherwise the string is lowercased and the
two synonym sets are collapsed; any other value is returned as the lowercased
string itself. -/
def normalize_role (value : Option String) : String :=
  match value with
  | none => "unknown"
  | some s =>
    if s = "" then "unknown"
    else
      let v := pyLower s
      if v = "controller" ∨ v = "ctrl" ∨ v = "host" then "controller"
      else if v = "dram" ∨ v = "memory" ∨ v = "mem" then "dram"
      else v

/-- `_normalize_net_type` of `cct.py`. -/
def normalize_net_type (value : Option String) : String :=
  match value with
  | none => "single"
  | some s =>
    if s = "" then "single"
    else
      let v := pyLower s
      if v = "diff" ∨ v = "differential" then "differential" else "single"

/-- `_normalize_polarity` of `cct.py`. -/
def normalize_polarity (value : Option String) : Option String :=
  match value with
  | none => none
  | some s =>
    let v := pyLower s
    if v = "positive" ∨ v = "pos" ∨ v = "+" ∨ v = "p" then some "positive"
    else if v = "negative" ∨ v = "neg" ∨ v = "-" ∨ v = "n" then some "negative"
    else some v

/-- Python `re.match(r'^\d+_(.*)$', base)` in `prefix_port_name`: the match
succeeds when `base` starts with one or more decimal digits followed by `_`
and the remainder contains no newline (`.` does not match `\n`, and `$` also
matches just before a single trailing newline, in which case that newline is
not captured).  `\d` is modelled as ASCII digits, which covers the port
names the tool produces.  Returns the captured group. -/
def seqTagRest (s : String) : Option String :=
  let cs := s.data
  let digs := cs.takeWhile Char.isDigit
  let rest := cs.dropWhile Char.isDigit
  if digs.isEmpty then none
  else
    match rest with
    | '_' :: r =>
      if '\n' ∈ r then
        if r.getLast? = some '\n' ∧ '\n' ∉ r.dropLast then some (String.mk r.dropLast)
        else none
      else some (String.mk r)
    | _ => none

/-- The suffix `prefix_port_name` derives from a port name: the name with any
leading `<digits>_` tag removed, then stripped of surrounding whitespace. -/
def portSuffix (name : String) : String :=
  pyStrip (match seqTagRest name with
           | some rest => rest
           | none => name)

/-- `prefix_port_name` of `cct.py` (the argument is already a string in every
caller, so `str(name or '')` is the identity). -/
def prefix_port_name (name : String) (sequence : Nat) : String :=
  let base := portSuffix name
  if base = "" then toString sequence else toString sequence ++ "_" ++ base

/-! ## Topology classification (`CCT._classify_port_groups` and friends) -/

/-- Ordering of port records by sequence number, used for the
`list.sort(key=lambda entry: entry.sequence)` calls.  Python's sort is
stable; so is Mathlib's insertion sort, and tie order is immaterial anyway
because loaded metadata carries distinct sequence numbers. -/
def seqLE (a b : PortMetadata) : Prop := a.sequence ≤ b.sequence

instance : DecidableRel seqLE := fun a b => inferInstanceAs (Decidable (a.sequence ≤ b.sequence))

instance : IsTotal PortMetadata seqLE := ⟨fun a b => Nat.le_total a.sequence b.sequence⟩

instance : IsTrans PortMetadata seqLE := ⟨fun _ _ _ h h2 => Nat.le_trans h h2⟩

def sortBySeq (l : List PortMetadata) : List PortMetadata := List.insertionSort seqLE l

/-- Controller-role single-ended entries, sorted by sequence. -/
def tx_single_entries (entries : List PortMetadata) : List PortMetadata :=
  sortBySeq (entries.filter (fun e => e.component_role == "controller" && e.net_type == "single"))

/-- Dram-role single-ended entries, sorted by sequence. -/
def rx_single_entries (entries : List PortMetadata) : List PortMetadata :=
  sortBySeq (entries.filter (fun e => e.component_role == "dram" && e.net_type == "single"))

/-- Association-list find modelling Python `dict` lookup.  Updates are consed
onto the front, so the first hit is the most recent binding. -/
def afind {κ β : Type} [DecidableEq κ] : List (κ × β) → κ → Option β
  | [], _ => none
  | (k, v) :: rest, key => if k = key then some v else afind rest key

/-- `groups.setdefault(key, {})[polarity] = entry`: update the bucket of
`key` in place (shadowing any previous binding of `polarity`), appending a
new bucket at the end when `key` is new — Python dicts preserve insertion
order. -/
def groupsUpdate (gs : List ((String × String) × List (String × PortMetadata)))
    (k : String × String) (pol : String) (e : PortMetadata) :
    List ((String × String) × List (String × PortMetadata)) :=
  match gs with
  | [] => [(k, [(pol, e)])]
  | (k', b) :: rest =>
    if k' = k then (k', (pol, e) :: b) :: rest else (k', b) :: groupsUpdate rest k pol e

/-- Ordering of differential pairs by the smaller sequence of the pair
(`pairs.sort(key=lambda item: min(...))`). -/
def pairLE (a b : PortMetadata × PortMetadata) : Prop :=
  min a.1.sequence a.2.sequence ≤ min b.1.sequence b.2.sequence

instance : DecidableRel pairLE :=
  fun a b => inferInstanceAs (Decidable (min a.1.sequence a.2.sequence ≤ min b.1.sequence b.2.sequence))

instance : IsTotal (PortMetadata × PortMetadata) pairLE :=
  ⟨fun a b => Nat.le_total (min a.1.sequence a.2.sequence) (min b.1.sequence b.2.sequence)⟩

instance : IsTrans (PortMetadata × PortMetadata) pairLE :=
  ⟨fun _ _ _ h h2 => Nat.le_trans h h2⟩

/-- `CCT._group_differential`: bucket the differential entries of a role by
`(component, pair or net)` — Python falsy-ness makes an absent or empty
`pair` fall back to `net` — assigning `"positive"` to the first leg of a
bucket without an explicit polarity and `"negative"` to later ones, with dict
overwrite semantics inside a bucket; keep only buckets holding both a
positive and a negative leg, sorted by the smaller sequence of the pair. -/
def diffStep (role : String)
    (gs : List ((String × String) × List (String × PortMetadata))) (e : PortMetadata) :
    List ((String × String) × List (String × PortMetadata)) :=
  if e.component_role == role && e.net_type == "differential" then
    let key : String × String :=
      (e.component, match e.pair with
                    | none => e.net
                    | some p => if p = "" then e.net else p)
    let bucket := (afind gs key).getD []
    let suggested := if afind bucket "positive" = none then "positive" else "negative"
    let pol := match e.polarity with
      | none => suggested
      | some p => if p = "" then suggested else p
    groupsUpdate gs key pol e
  else gs

def group_differential (role : String) (source : List PortMetadata) :
    List (PortMetadata × PortMetadata) :=
  let gs := source.foldl (diffStep role) []
  let pairs := gs.filterMap (fun kb =>
    match afind kb.2 "positive", afind kb.2 "negative" with
    | some pos, some neg => some (pos, neg)
    | _, _ => none)
  List.insertionSort pairLE pairs

/-- Matched controller differential pairs. -/
def tx_diff_entries (entries : List PortMetadata) : List (PortMetadata × PortMetadata) :=
  group_differential "controller" entries

/-- Matched dram differential pairs. -/
def rx_diff_entries (entries : List PortMetadata) : List (PortMetadata × PortMetadata) :=
  group_differential "dram" entries

/-- `CCT._classify_ports`: the sequences of all classified controller ports —
single-ended controller entries plus both legs of every matched controller
differential pair.  The code stores `sorted(set(...))`; only the set is used
downstream, so the model keeps the `Finset`. -/
def controllerSeqs (entries : List PortMetadata) : Finset ℕ :=
  ((tx_single_entries entries).map (fun e => e.sequence) ++
    (tx_diff_entries entries).flatMap (fun pn => [pn.1.sequence, pn.2.sequence])).toFinset

/-- A TX group object as built by `set_txs`: `Tx` (single-ended) or `Tx_diff`
(differential).  Two distinct `Tx` objects never carry equal metadata records
in an engine instance (sequence numbers are distinct after loading), so
Python object identity (`is`) coincides with record equality. -/
inductive TxGroup where
  | single (meta : PortMetadata)
  | diff (pos neg : PortMetadata)
deriving DecidableEq, Repr

/-- The TX group list `self.txs` built by `set_txs`: singles first, then
differential pairs. -/
def txsOf (entries : List PortMetadata) : List TxGroup :=
  (tx_single_entries entries).map TxGroup.single ++
    (tx_diff_entries entries).map (fun pn => TxGroup.diff pn.1 pn.2)

/-- `CCT._diff_identifier`: `tuple(sorted([positive.net, negative.net]))`. -/
def diffId (p n : PortMetadata) : String × String :=
  if p.net ≤ n.net then (p.net, n.net) else (n.net, p.net)

/-- The map `tx_single_map : net ↦ Tx` built by `_create_tx_objects`
(later insertions overwrite earlier ones, hence the reverse). -/
def txSingleDict (entries : List PortMetadata) (net : String) : Option PortMetadata :=
  afind (((tx_single_entries entries).map (fun e => (e.net, e))).reverse) net

/-- The map `tx_diff_map : identifier ↦ Tx_diff` built by
`_create_tx_objects`. -/
def txDiffDict (entries : List PortMetadata) (k : String × String) :
    Option (PortMetadata × PortMetadata) :=
  afind (((tx_diff_entries entries).map (fun pn => (diffId pn.1 pn.2, pn))).reverse) k

/-! ## The pruning computation (`CCT._compute_prune_result`) -/

/-- The frequency-domain network in dB space: entry `(rx_idx, tx_idx)` is the
list, over frequency samples, of `20·log10 |S[f, rx_idx, tx_idx]|`, with `⊥`
standing for a zero magnitude (`-inf` dB).  The spec guarantees the network
covers every port index of the metadata, which a total function models. -/
def Network : Type := ℕ → ℕ → List (WithBot ℚ)

/-- The peak search of `_compute_prune_result`:
`peak = 0; for idx pairs: data = |S[:, rx, tx]|; if data.size: peak = max(peak, max(data))`
followed by `20·log10(peak) if peak > 0 else -inf`, carried out directly in
dB space (`20·log10` commutes with `max` and sends `0` to `⊥`). -/
def peakDb (net : Network) (rxIdxs txIdxs : List ℕ) : WithBot ℚ :=
  rxIdxs.foldl (fun acc ri =>
    txIdxs.foldl (fun acc2 ti =>
      let data := net ri ti
      if data.isEmpty then acc2 else max acc2 (data.foldl max ⊥)) acc) ⊥

/-- The sequences driven by a TX group (`tx_sequences` in the source). -/
def txSeqsOf (tx : TxGroup) : List ℕ :=
  match tx with
  | .diff p n => [p.sequence, n.sequence]
  | .single m => [m.sequence]

/-- Keep decision for one RX single-ended entry: kept when the entry's net
maps to this very TX group (`base_rx.expected_tx is tx`, where
`expected_tx = tx_single_map.get(entry.net)`), otherwise when the peak
coupling in dB reaches the threshold (`peak_db >= threshold`). -/
def keepRxSingle (entries : List PortMetadata) (net : Network) (thr : WithBot ℚ)
    (tx : TxGroup) (txIdxs : List ℕ) (e : PortMetadata) : Bool :=
  (match txSingleDict entries e.net with
   | some m => tx == TxGroup.single m
   | none => false) ||
  decide (thr ≤ peakDb net [e.sequence - 1] txIdxs)

/-- Keep decision for one RX differential pair, same rule with the peak taken
across both legs. -/
def keepRxDiff (entries : List PortMetadata) (net : Network) (thr : WithBot ℚ)
    (tx : TxGroup) (txIdxs : List ℕ) (pn : PortMetadata × PortMetadata) : Bool :=
  (match txDiffDict entries (diffId pn.1 pn.2) with
   | some qm => tx == TxGroup.diff qm.1 qm.2
   | none => false) ||
  decide (thr ≤ peakDb net [pn.1.sequence - 1, pn.2.sequence - 1] txIdxs)

/-- The defensive re-union at the end of `_compute_prune_result`:
`if not kept_sequences.issuperset(controller): kept_sequences.update(controller)`. -/
def defensiveCtrl (ctrl k : Finset ℕ) : Finset ℕ :=
  if ¬ ctrl ⊆ k then k ∪ ctrl else k

/-- The thresholded branch of `_compute_prune_result`: seed the kept set with
the controller sequences, run the keep decision over the RX single entries
and then over the RX differential pairs, and re-union the controller
sequences defensively. -/
def keptThreshold (entries : List PortMetadata) (net : Network) (thr : WithBot ℚ)
    (tx : TxGroup) : Finset ℕ :=
  defensiveCtrl (controllerSeqs entries)
    ((rx_diff_entries entries).foldl
      (fun acc pn =>
        if keepRxDiff entries net thr tx ((txSeqsOf tx).map (fun s => s - 1)) pn
        then insert pn.1.sequence (insert pn.2.sequence acc) else acc)
      ((rx_single_entries entries).foldl
        (fun acc e =>
          if keepRxSingle entries net thr tx ((txSeqsOf tx).map (fun s => s - 1)) e
          then insert e.sequence acc else acc)
        (controllerSeqs entries)))

/-- The kept-sequence set of `CCT._compute_prune_result` (lines 613-675 of
`cct.py`): when the threshold is unset or no network backend is available,
the controller sequences plus every sequence `1..N`; otherwise the
thresholded keep computation above.  The source returns this set sorted
ascending as `PruneResult.kept_sequences`; the claims are about the set,
which the model keeps as a `Finset`. -/
def computeKept (entries : List PortMetadata) (network : Option Network)
    (threshold_db : Option (WithBot ℚ)) (tx : TxGroup) : Finset ℕ :=
  match threshold_db, network with
  | some thr, some net => keptThreshold entries net thr tx
  | _, _ => controllerSeqs entries ∪ Finset.Icc 1 entries.length

/-! ## Engine state and the cache (`CCT.set_threshold/set_txs/set_rxs`,
`CCT._ensure_prune_result`) -/

/-- The TX electrical configuration stored by `set_txs` (values are the
strings fed into netlists). -/
structure TxConf where
  vhigh : String
  t_rise : String
  ui : String
  res_tx : String
  cap_tx : String
deriving DecidableEq, Repr

/-- The RX electrical configuration stored by `set_rxs`. -/
structure RxConf where
  res_rx : String
  cap_rx : String
deriving DecidableEq, Repr

/-- The claim-relevant mutable state of a `CCT` instance: metadata, threshold,
optional network backend, the two electrical configurations, the prune memo
cache (keyed by `_tx_to_key`, holding the kept-sequence sets of the cached
`PruneResult`s) and the one-shot warning flag.  Derived attributes (the
classified entry lists, the TX/RX objects, the lookup maps) are functions of
these fields and are modelled as such; `_prerun_summaries` is logging-only
and omitted. -/
structure CState where
  port_metadata : List PortMetadata
  threshold_db : Option (WithBot ℚ)
  network : Option Network
  tx_config : Option TxConf
  rx_config : Option RxConf
  prune_cache : List ((String × String) × Finset ℕ)
  prune_warning_emitted : Bool

/-- `CCT._tx_to_key`. -/
def tx_to_key : TxGroup → String × String
  | .diff p n => ("diff", (diffId p n).1 ++ "::" ++ (diffId p n).2)
  | .single m => ("single", m.net)

/-- `CCT.set_threshold`: store the threshold and clear the prune cache. -/
def set_threshold (st : CState) (threshold_db : Option (WithBot ℚ)) : CState :=
  { st with threshold_db := threshold_db, prune_cache := [] }

/-- `CCT.set_txs`: store the TX configuration (rebuilding the TX objects,
which are derived data here) and clear the prune cache. -/
def set_txs (st : CState) (cfg : TxConf) : CState :=
  { st with tx_config := some cfg, prune_cache := [] }

/-- `CCT.set_rxs`: raises unless `set_txs` ran first; otherwise store the RX
configuration and clear the prune cache. -/
def set_rxs (st : CState) (cfg : RxConf) : Except String CState :=
  if st.tx_config.isNone then Except.error "set_txs must be called before set_rxs"
  else Except.ok { st with rx_config := some cfg, prune_cache := [] }

/-- The condition under which `_compute_prune_result` prints the
`"scikit-rf not available; pruning disabled"` warning:
`threshold_db is not None and network is None and not warning_emitted`. -/
def warnFlag (st : CState) : Bool :=
  !st.threshold_db.isNone && st.network.isNone && !st.prune_warning_emitted

/-- `CCT._compute_prune_result`, restricted to its claim-relevant effects:
the precondition error, the one-time warning print (the returned `Bool` is
`true` exactly when the warning is printed during this call), the warning
flag update, and the kept-sequence set. -/
def compute_prune (st : CState) (tx : TxGroup) :
    Except String ((Finset ℕ × Bool) × CState) :=
  if st.tx_config.isNone || st.rx_config.isNone then
    Except.error "set_txs and set_rxs must be called before running pruning"
  else
    Except.ok ((computeKept st.port_metadata st.network st.threshold_db tx, warnFlag st),
      { st with prune_warning_emitted := st.prune_warning_emitted || warnFlag st })

/-- `CCT._ensure_prune_result`: return the cached result when present,
otherwise compute and cache. -/
def ensure_prune (st : CState) (tx : TxGroup) :
    Except String ((Finset ℕ × Bool) × CState) :=
  match afind st.prune_cache (tx_to_key tx) with
  | some kept => Except.ok ((kept, false), st)
  | none =>
    match compute_prune st tx with
    | Except.error e => Except.error e
    | Except.ok (r, st') =>
      Except.ok (r, { st' with prune_cache := (tx_to_key tx, r.1) :: st'.prune_cache })

/-- The kept-sequence set of a prune call's outcome (empty on error). -/
def keptOf (r : Except String ((Finset ℕ × Bool) × CState)) : Finset ℕ :=
  match r with
  | Except.ok x => x.1.1
  | Except.error _ => ∅

/-- Engine states reachable from a freshly constructed `CCT` instance
(`__init__` leaves both configurations unset, the cache empty and the
warning flag clear) by the public operations. -/
inductive Reachable : CState → Prop where
  | init : ∀ (pm : List PortMetadata) (thr : Option (WithBot ℚ)) (net : Option Network),
      Reachable ⟨pm, thr, net, none, none, [], false⟩
  | step_threshold : ∀ st v, Reachable st → Reachable (set_threshold st v)
  | step_txs : ∀ st c, Reachable st → Reachable (set_txs st c)
  | step_rxs : ∀ st c st', Reachable st → set_rxs st c = Except.ok st' → Reachable st'
  | step_ensure : ∀ st tx r st', Reachable st → ensure_prune st tx = Except.ok (r, st') →
      Reachable st'

/-- A sequence of prune computations (`_ensure_prune_result` calls as issued
by `pre_run`/`run`): returns, per call, whether the warning was printed and
the kept-sequence set, threading the state.  A raised exception aborts the
sequence. -/
def run_ensures : CState → List TxGroup → List (Bool × Finset ℕ) × CState
  | st, [] => ([], st)
  | st, tx :: rest =>
    match ensure_prune st tx with
    | Except.error _ => ([], st)
    | Except.ok ((kept, warn), st') =>
      let r := run_ensures st' rest
      ((warn, kept) :: r.1, r.2)

/-- The invariant `load_port_metadata` establishes: after sorting and
renumbering, the entries carry the dense sequence numbers `1..N` in order. -/
def SeqWF (entries : List PortMetadata) : Prop :=
  entries.map (fun e => e.sequence) = List.range' 1 entries.length

instance (entries : List PortMetadata) : Decidable (SeqWF entries) :=
  inferInstanceAs (Decidable (entries.map (fun e => e.sequence) = List.range' 1 entries.length))

/-! ## Differential TX netlists (`Tx_diff.__init__`) -/

/-- The claim-relevant fields of a `Tx_diff` object. -/
structure TxDiffObj where
  pos : PortMetadata
  neg : PortMetadata
  sequence : ℕ
  label : String
  active : List String
  passive : List String
  kind : String
  key : String × String
deriving DecidableEq, Repr

/-- `Tx_diff.__init__` of `cct.py`: the netlist lines are built with Python
f-strings; `PULSE(V1 V2 TD TR TF PW PER)` carries the 0 V baseline, the
`±0.5*vhigh` amplitude expression, a 0.1 ns delay, the rise and fall times,
the pulse width (one unit interval) and a period of `1.5e+100` s — an
effectively infinite hold. -/
def Tx_diff (positive negative : PortMetadata)
    (vhigh t_rise ui res_tx cap_tx : String) : TxDiffObj :=
  let pp := toString positive.sequence
  let pn := toString negative.sequence
  { pos := positive
    neg := negative
    sequence := min positive.sequence negative.sequence
    label := match positive.pair with
      | none => positive.name ++ "/" ++ negative.name
      | some p => if p = "" then positive.name ++ "/" ++ negative.name else p
    active := [
      "V" ++ pp ++ " netb_" ++ pp ++ " 0 PULSE(0 0.5*" ++ vhigh ++ " 1e-10 "
        ++ t_rise ++ " " ++ t_rise ++ " " ++ ui ++ " 1.5e+100)",
      "R" ++ pp ++ " netb_" ++ pp ++ " net_" ++ pp ++ " " ++ res_tx,
      "C" ++ pp ++ " netb_" ++ pp ++ " 0 " ++ cap_tx,
      "V" ++ pn ++ " netb_" ++ pn ++ " 0 PULSE(0 -0.5*" ++ vhigh ++ " 1e-10 "
        ++ t_rise ++ " " ++ t_rise ++ " " ++ ui ++ " 1.5e+100)",
      "R" ++ pn ++ " netb_" ++ pn ++ " net_" ++ pn ++ " " ++ res_tx,
      "C" ++ pn ++ " netb_" ++ pn ++ " 0 " ++ cap_tx ]
    passive := [
      "R" ++ pp ++ " netb_" ++ pp ++ " net_" ++ pp ++ " " ++ res_tx,
      "C" ++ pp ++ " netb_" ++ pp ++ " 0 " ++ cap_tx,
      "R" ++ pn ++ " netb_" ++ pn ++ " net_" ++ pn ++ " " ++ res_tx,
      "C" ++ pn ++ " netb_" ++ pn ++ " 0 " ++ cap_tx ]
    kind := "diff"
    key := diffId positive negative }

/-- The numeric value of a natural-number digit string. -/
def natOfDigits (cs : List Char) : Option ℕ :=
  if cs ≠ [] ∧ cs.all Char.isDigit then
    some (cs.foldl (fun acc c => 10 * acc + (c.toNat - 48)) 0)
  else none

/-- SPICE value of one decimal literal as emitted into the netlists: optional
leading `-`, digits, optional fractional part, optional trailing voltage
unit `V` (scale 1). -/
def decValue (cs : List Char) : Option ℚ :=
  let cs := if cs.getLast? = some 'V' then cs.dropLast else cs
  let sgn : ℚ := if cs.head? = some '-' then -1 else 1
  let cs := if cs.head? = some '-' then cs.tail else cs
  let ip := cs.takeWhile (fun c => c ≠ '.')
  let rest := cs.dropWhile (fun c => c ≠ '.')
  match rest with
  | [] => (natOfDigits ip).map (fun n => sgn * n)
  | _ :: fp =>
    if '.' ∈ fp then none
    else
      match natOfDigits ip, natOfDigits fp with
      | some n, some f => some (sgn * ((n : ℚ) + (f : ℚ) / (10 ^ fp.length)))
      | _, _ => none

/-- Split a character list at `*` separators. -/
def splitStar : List Char → List (List Char)
  | [] => [[]]
  | c :: rest =>
    match splitStar rest with
    | [] => [[]]
    | g :: gs => if c = '*' then [] :: g :: gs else (c :: g) :: gs

/-- The product of the values of a list of factors (`none` when any factor
fails to parse). -/
def prodValues : List (List Char) → Option ℚ
  | [] => some 1
  | g :: gs =>
    match decValue g, prodValues gs with
    | some x, some r => some (x * r)
    | _, _ => none

/-- SPICE value of a product expression such as `0.5*0.8V`: the product of
its factors' values. -/
def ampValue (s : String) : Option ℚ :=
  prodValues (splitStar s.data)

/-! ## Waveform metrics (`get_sig_isi`) -/

/-- Ordering of (time, voltage) samples by time, used to model
`np.argsort(t)` followed by fancy indexing.  `argsort` is an unstable
ascending sort, so the relative order of equal times is unspecified in the
source; any ascending sort is a faithful model. -/
def leFst (a b : ℚ × ℚ) : Prop := a.1 ≤ b.1

instance : DecidableRel leFst := fun a b => inferInstanceAs (Decidable (a.1 ≤ b.1))

instance : IsTotal (ℚ × ℚ) leFst := ⟨fun a b => le_total a.1 b.1⟩

instance : IsTrans (ℚ × ℚ) leFst := ⟨fun _ _ _ h h2 => le_trans h h2⟩

def sortPairs (l : List (ℚ × ℚ)) : List (ℚ × ℚ) := List.insertionSort leFst l

/-- `trap[k]` of `get_sig_isi`: the cumulative trapezoidal prefix sum
`concatenate([[0], cumsum((v[:-1] + v[1:]) * 0.5 * dt)])` at index `k`. -/
def trapAt (t v : List ℚ) (k : ℕ) : ℚ :=
  ∑ i ∈ Finset.range k, (v.getD i 0 + v.getD (i + 1) 0) * 0.5 * (t.getD (i + 1) 0 - t.getD i 0)

/-- `trap_abs[k]` of `get_sig_isi`: same prefix sum over `|v|`. -/
def trapAbsAt (t v : List ℚ) (k : ℕ) : ℚ :=
  ∑ i ∈ Finset.range k, (|v.getD i 0| + |v.getD (i + 1) 0|) * 0.5 * (t.getD (i + 1) 0 - t.getD i 0)

/-- `np.searchsorted(t, x, side="right")` on the sorted array `t`: the number
of elements `≤ x`. -/
def countLE (t : List ℚ) (x : ℚ) : ℕ := (t.filter (fun a => decide (a ≤ x))).length

/-- The inner two-pointer loop `while j + 1 < n and t[j+1] <= t_end: j += 1`.
The fuel argument is called with `t.length`, which strictly exceeds the
number of possible increments (`j` stays below `t.length`), so the fuel
never runs out and the recursion is exactly the source loop. -/
def advanceJ (t : List ℚ) (tEnd : ℚ) : ℕ → ℕ → ℕ
  | 0, j => j
  | fuel + 1, j =>
    if j + 1 < t.length ∧ t.getD (j + 1) 0 ≤ tEnd then advanceJ t tEnd fuel (j + 1) else j

/-- The fractional final sub-interval correction of a window
(`if j + 1 < n and t[j] < t_end < t[j+1]: ...` on the signed voltage). -/
def endCorrection (t v : List ℚ) (j : ℕ) (tEnd : ℚ) : ℚ :=
  if j + 1 < t.length ∧ t.getD j 0 < tEnd ∧ tEnd < t.getD (j + 1) 0 then
    let vEnd := v.getD j 0 +
      (v.getD (j + 1) 0 - v.getD j 0) * (tEnd - t.getD j 0) / (t.getD (j + 1) 0 - t.getD j 0)
    0.5 * (v.getD j 0 + vEnd) * (tEnd - t.getD j 0)
  else 0

/-- The same correction on `|v|` (the interpolant `v_end` is computed from
the signed samples and only then taken in absolute value, as in the source). -/
def endCorrectionAbs (t v : List ℚ) (j : ℕ) (tEnd : ℚ) : ℚ :=
  if j + 1 < t.length ∧ t.getD j 0 < tEnd ∧ tEnd < t.getD (j + 1) 0 then
    let vEnd := v.getD j 0 +
      (v.getD (j + 1) 0 - v.getD j 0) * (tEnd - t.getD j 0) / (t.getD (j + 1) 0 - t.getD j 0)
    0.5 * (|v.getD j 0| + |vEnd|) * (tEnd - t.getD j 0)
  else 0

/-- State of the window-search loop of `get_sig_isi`.  `sigMax = none` models
the initial `-np.inf` (any real integral compares strictly greater), and
`bestTEnd = none` the initial `best_t_end = None`. -/
structure LoopSt where
  j : ℕ
  sigMax : Option ℚ
  bestI : ℕ
  bestJ : ℕ
  bestTEnd : Option ℚ
deriving Repr

/-- The value of `j` after the two-pointer advance of one loop iteration
starting at `j0` for window start index `i` (the window end is
`t[i] + unit_interval`). -/
def jAdv (t : List ℚ) (ui : ℚ) (j0 i : ℕ) : ℕ :=
  advanceJ t (t.getD i 0 + ui) t.length j0

/-- The signed window integral `trap[j] - trap[i]` plus the fractional final
sub-interval correction, for the window starting at index `i`. -/
def windowInteg (t v : List ℚ) (ui : ℚ) (j0 i : ℕ) : ℚ :=
  trapAt t v (jAdv t ui j0 i) - trapAt t v i +
    endCorrection t v (jAdv t ui j0 i) (t.getD i 0 + ui)

/-- One iteration of `for i in range(last_i + 1)` in `get_sig_isi`: advance
`j`, integrate the window, and update the best window on a strictly greater
signed integral (`integ > sig_max`, with the initial `-inf` losing to any
value). -/
def loopStep (t v : List ℚ) (ui : ℚ) (st : LoopSt) (i : ℕ) : LoopSt :=
  if (match st.sigMax with
      | none => true
      | some m => decide (m < windowInteg t v ui st.j i)) = true then
    ⟨jAdv t ui st.j i, some (windowInteg t v ui st.j i), i, jAdv t ui st.j i,
      some (t.getD i 0 + ui)⟩
  else ⟨jAdv t ui st.j i, st.sigMax, st.bestI, st.bestJ, st.bestTEnd⟩

/-- The window-search loop `for i in range(last_i + 1)` run from the initial
state (`j = 0`, `sig_max = -inf`, `best_t_end = None`); `cnt = last_i + 1` is
the number of candidate start indices. -/
def sigLoop (t v : List ℚ) (ui : ℚ) (cnt : ℕ) : LoopSt :=
  (List.range cnt).foldl (loopStep t v ui) ⟨0, none, 0, 0, none⟩

/-- The epilogue of `get_sig_isi`: re-integrate `|v|` over the winning window
and return `(sig, total_abs - integ_abs)`.  The `"TypeError"` branch models
the comparison against `best_t_end = None` that Python would attempt had the
loop never updated the best window (proved unreachable below). -/
def finishCalc (t v : List ℚ) (fin : LoopSt) : Except String (ℚ × ℚ) :=
  match fin.sigMax, fin.bestTEnd with
  | some sig, some tEnd =>
    Except.ok (sig, trapAbsAt t v (t.length - 1) -
      (trapAbsAt t v fin.bestJ - trapAbsAt t v fin.bestI +
        endCorrectionAbs t v fin.bestJ tEnd))
  | _, _ => Except.error "TypeError"

/-- The part of `get_sig_isi` that runs on the time-sorted sample arrays:
the unguarded `t[-1]` raises `IndexError` on empty input, then the span and
window checks, then the search loop and the epilogue. -/
def get_sig_isi_sorted (t v : List ℚ) (unit_interval : ℚ) : Except String (ℚ × ℚ) :=
  if t.isEmpty then Except.error "IndexError"
  else if t.getD (t.length - 1) 0 - t.getD 0 0 < unit_interval then
    Except.error "Waveform duration is shorter than unit interval"
  else if countLE t (t.getD (t.length - 1) 0 - unit_interval) = 0 then
    Except.error "No valid integration window of length unit_interval"
  else
    finishCalc t v
      (sigLoop t v unit_interval (countLE t (t.getD (t.length - 1) 0 - unit_interval)))

/-- `get_sig_isi` of `cct.py` over exact rationals.  The inputs are the
1-D time and voltage sample lists (so the `ndim` checks reduce to the length
check); after the argument checks the samples are sorted by time and handed
to `get_sig_isi_sorted`.  Error strings are the exception messages. -/
def get_sig_isi (time_list voltage_list : List ℚ) (unit_interval : ℚ) :
    Except String (ℚ × ℚ) :=
  if time_list.length ≠ voltage_list.length then
    Except.error "time_list and voltage_list must be 1-D and of equal length"
  else if unit_interval ≤ 0 then
    Except.error "unit_interval must be positive"
  else
    get_sig_isi_sorted ((sortPairs (time_list.zip voltage_list)).map Prod.fst)
      ((sortPairs (time_list.zip voltage_list)).map Prod.snd) unit_interval

/-- Whether a call raised. -/
def isErr {α : Type} : Except String α → Bool
  | Except.error _ => true
  | Except.ok _ => false

def qLE (a b : ℚ) : Prop := a ≤ b

instance : DecidableRel qLE := fun a b => inferInstanceAs (Decidable (a ≤ b))

instance : IsTotal ℚ qLE := ⟨fun a b => le_total a b⟩

instance : IsTrans ℚ qLE := ⟨fun _ _ _ h h2 => le_trans h h2⟩

instance : IsAntisymm ℚ qLE := ⟨fun _ _ h h2 => le_antisymm h h2⟩

/-- The "sorted time span `time[last] - time[0]`" of the claim, read over the
actual samples of the (nonempty) time array. -/
def sortedSpan (t : List ℚ) : ℚ :=
  let ts := List.insertionSort qLE t
  ts.getD (ts.length - 1) 0 - ts.getD 0 0

/-- The error condition exactly as claim C7 states it: arrays not 1-D of
equal length, or a non-positive unit interval, or (there being samples) a
sorted time span strictly smaller than the unit interval. -/
def claimedErrCond (t v : List ℚ) (ui : ℚ) : Prop :=
  t.length ≠ v.length ∨ ui ≤ 0 ∨ (t ≠ [] ∧ sortedSpan t < ui)

instance (t v : List ℚ) (ui : ℚ) : Decidable (claimedErrCond t v ui) :=
  inferInstanceAs (Decidable (t.length ≠ v.length ∨ ui ≤ 0 ∨ (t ≠ [] ∧ sortedSpan t < ui)))

/-! ## Concrete fixtures used by counterexamples and witnesses -/

/-- A single-ended controller port (sequence 1, net `A`). -/
def exCtrlSingle : PortMetadata := ⟨1, "1_a", "U1", "controller", "A", "single", none, none⟩

/-- A controller differential leg whose pair partner is absent from the
metadata (sequence 2). -/
def exCtrlDiffLeg : PortMetadata :=
  ⟨2, "2_b", "U1", "controller", "B", "differential", some "P", some "positive"⟩

/-- A port whose role is not recognized (sequence 2). -/
def exUnknown : PortMetadata := ⟨2, "2_c", "U2", "unknown", "C", "single", none, none⟩

/-- A dram single-ended port on net `A` (the partner of `exCtrlSingle`). -/
def exDramA : PortMetadata := ⟨2, "2_d", "U2", "dram", "A", "single", none, none⟩

/-- A dram single-ended port on net `B` (no controller partner). -/
def exDramB : PortMetadata := ⟨3, "3_e", "U2", "dram", "B", "single", none, none⟩

/-- A tiny network backend whose every dB sample list is `[-3 dB]`. -/
def exNet : Network := fun _ _ => [((-3 : ℚ) : WithBot ℚ)]

/-- A TX electrical configuration (the values of `cct.py`'s `__main__`). -/
def exTxConf : TxConf := ⟨"0.8V", "30ps", "133ps", "40ohm", "1pF"⟩

/-- An RX electrical configuration (the values of `cct.py`'s `__main__`). -/
def exRxConf : RxConf := ⟨"30ohm", "1.8pF"⟩

/-- A fully configured engine state over three single-ended ports with a
network backend. -/
def exState : CState :=
  ⟨[exCtrlSingle, exDramA, exDramB], none, some exNet, some exTxConf, some exRxConf, [], false⟩

/-- A fully configured engine state with the threshold set but no network
backend available. -/
def exStateNoNet : CState :=
  ⟨[exCtrlSingle, exDramA], some ((0 : ℚ) : WithBot ℚ), none, some exTxConf, some exRxConf,
    [], false⟩

end CCT

namespace CCT

/-- C6 counterexample: the claim says every unrecognized role string is
mapped to `"unknown"`, but `_normalize_role` returns the lowercased input
itself for an unrecognized non-empty string such as `"gpu"`. -/
theorem normalize_role_gpu_not_unknown :
    normalize_role (some "gpu") = "gpu" ∧
    ("gpu" ≠ "controller" ∧ "gpu" ≠ "dram" ∧ "gpu" ≠ "unknown") := by
  decide

/-- C6 amended: `net_type` normalization always lands in the two-element
enumeration (unrecognized values fall back to `"single"`), while role
normalization maps falsy input to `"unknown"`, the synonym sets to
`"controller"`/`"dram"`, and any other string to its lowercased self (which
need not be in the three-element enumeration). -/
theorem normalize_enums (v : Option String) :
    (normalize_net_type v = "single" ∨ normalize_net_type v = "differential") ∧
    (normalize_role v = "unknown" ∨ normalize_role v = "controller" ∨
      normalize_role v = "dram" ∨ ∃ s, v = some s ∧ normalize_role v = pyLower s) := by
  constructor
  · cases v with
    | none => left; rfl
    | some s =>
      unfold normalize_net_type
      by_cases h : s = ""
      · simp [h]
      · simp only [h, if_false]
        by_cases h2 : pyLower s = "diff" ∨ pyLower s = "differential"
        · simp [h2]
        · simp [h2]
  · cases v with
    | none => left; rfl
    | some s =>
      unfold normalize_role
      by_cases h : s = ""
      · simp [h]
      · simp only [h, if_false]
        by_cases h2 : pyLower s = "controller" ∨ pyLower s = "ctrl" ∨ pyLower s = "host"
        · simp [h2]
        · by_cases h3 : pyLower s = "dram" ∨ pyLower s = "memory" ∨ pyLower s = "mem"
          · simp [h2, h3]
          · simp only [h2, h3, if_false]
            right; right; right
            exact ⟨s, rfl, rfl⟩

/-- C10: when the port name, after removing a leading `<digits>_` tag and
surrounding whitespace, is empty, `prefix_port_name` returns the bare decimal
sequence string with no trailing underscore (for a non-empty suffix it
returns `<sequence>_<suffix>`). -/
theorem prefix_port_name_empty_suffix (name : String) (sequence : Nat)
    (h : portSuffix name = "") :
    prefix_port_name name sequence = toString sequence := by
  unfold prefix_port_name
  simp [h]

/-- Witness for C10 at a concrete input: `"3_  "` strips to the empty suffix
and is renamed to plain `"7"`. -/
theorem prefix_port_name_empty_suffix_witness :
    portSuffix "3_  " = "" ∧ prefix_port_name "3_  " 7 = "7" :=
  ⟨by decide, prefix_port_name_empty_suffix "3_  " 7 (by decide)⟩

/-- In every reachable engine state, the prune cache can only be non-empty
once `set_txs` has run: cache entries are created by `_ensure_prune_result`,
whose computation raises unless both configurations are set, and `tx_config`
is never unset again. -/
theorem cache_empty_of_no_txconf (st : CState) (h : Reachable st)
    (htx : st.tx_config = none) : st.prune_cache = [] := by
  induction h with
  | init pm thr net => rfl
  | step_threshold st v _ ih => exact rfl
  | step_txs st c _ ih => exact rfl
  | step_rxs st c st' _ hok ih =>
    unfold set_rxs at hok
    by_cases hc : st.tx_config.isNone
    · simp [hc] at hok
    · simp only [hc, Bool.false_eq_true, if_false, Except.ok.injEq] at hok
      subst hok
      rfl
  | step_ensure st tx r st' _ hok ih =>
    unfold ensure_prune at hok
    cases hfind : afind st.prune_cache (tx_to_key tx) with
    | some kept =>
      rw [hfind] at hok
      simp only [Except.ok.injEq, Prod.mk.injEq] at hok
      obtain ⟨-, rfl⟩ := hok
      exact ih htx
    | none =>
      rw [hfind] at hok
      unfold compute_prune at hok
      by_cases hc : st.tx_config.isNone || st.rx_config.isNone
      · simp [hc] at hok
      · simp only [hc, Bool.false_eq_true, if_false, Except.ok.injEq, Prod.mk.injEq] at hok
        obtain ⟨-, rfl⟩ := hok
        exfalso
        rw [show st.tx_config = none from htx] at hc
        simp at hc

/-- When the cache is empty, `_ensure_prune_result` returns exactly the
freshly computed result. -/
theorem keptOf_ensure_of_cache_empty (st : CState) (tx : TxGroup)
    (h : st.prune_cache = []) :
    keptOf (ensure_prune st tx) = keptOf (compute_prune st tx) := by
  unfold ensure_prune
  rw [h]
  show keptOf (match compute_prune st tx with
    | Except.error e => Except.error e
    | Except.ok (r, st') =>
      Except.ok (r, { st' with prune_cache := (tx_to_key tx, r.1) :: st'.prune_cache })) = _
  cases hc : compute_prune st tx with
  | error e => rfl
  | ok x => rfl

/-- C4: each of the three setters leaves the prune cache empty — including a
`set_rxs` call that raises, since in any reachable state where it can raise
the cache is necessarily empty already — so the next prune computation for
any TX group returns the result freshly computed under the new
threshold/configurations, never a cached one. -/
theorem prune_cache_invalidation (st : CState) (h : Reachable st) :
    (∀ v, (set_threshold st v).prune_cache = []) ∧
    (∀ c, (set_txs st c).prune_cache = []) ∧
    (∀ c st', set_rxs st c = Except.ok st' → st'.prune_cache = []) ∧
    (∀ c e, set_rxs st c = Except.error e → st.prune_cache = []) ∧
    (∀ v tx, keptOf (ensure_prune (set_threshold st v) tx) =
      keptOf (compute_prune (set_threshold st v) tx)) ∧
    (∀ c tx, keptOf (ensure_prune (set_txs st c) tx) =
      keptOf (compute_prune (set_txs st c) tx)) ∧
    (∀ c st' tx, set_rxs st c = Except.ok st' →
      keptOf (ensure_prune st' tx) = keptOf (compute_prune st' tx)) := by
  have hrxok : ∀ c st', set_rxs st c = Except.ok st' → st'.prune_cache = [] := by
    intro c st' hok
    unfold set_rxs at hok
    by_cases hc : st.tx_config.isNone
    · simp [hc] at hok
    · simp only [hc, Bool.false_eq_true, if_false, Except.ok.injEq] at hok
      subst hok
      rfl
  refine ⟨fun v => rfl, fun c => rfl, hrxok, ?_, ?_, ?_, ?_⟩
  · intro c e herr
    unfold set_rxs at herr
    by_cases hc : st.tx_config.isNone
    · exact cache_empty_of_no_txconf st h (Option.isNone_iff_eq_none.mp hc)
    · simp [hc] at herr
  · intro v tx
    exact keptOf_ensure_of_cache_empty _ tx rfl
  · intro c tx
    exact keptOf_ensure_of_cache_empty _ tx rfl
  · intro c st' tx hok
    exact keptOf_ensure_of_cache_empty _ tx (hrxok c st' hok)

/-- Witness for C4 at a concrete reachable state. -/
theorem prune_cache_invalidation_witness :
    (set_threshold ⟨[], none, none, none, none, [], false⟩ none).prune_cache = [] :=
  (prune_cache_invalidation _ (Reachable.init [] none none)).1 none

/-- C5: a differential TX group built with `vhigh = "0.8V"` emits, in its
active form, a pulse source on each leg whose amplitude expressions are
`0.5*0.8V` and `-0.5*0.8V` — that is, exactly `+0.4 V` and `-0.4 V`
(`±0.5·Vhigh`) — with a `0` volt baseline, the given rise and fall time, the
given unit interval as pulse width, and a `1.5e+100` s period (an
effectively infinite hold). -/
theorem tx_diff_amplitude (positive negative : PortMetadata)
    (t_rise ui res_tx cap_tx : String) :
    (Tx_diff positive negative "0.8V" t_rise ui res_tx cap_tx).active =
      [ "V" ++ toString positive.sequence ++ " netb_" ++ toString positive.sequence ++
          " 0 PULSE(0 0.5*" ++ "0.8V" ++ " 1e-10 " ++ t_rise ++ " " ++ t_rise ++ " " ++
          ui ++ " 1.5e+100)",
        "R" ++ toString positive.sequence ++ " netb_" ++ toString positive.sequence ++
          " net_" ++ toString positive.sequence ++ " " ++ res_tx,
        "C" ++ toString positive.sequence ++ " netb_" ++ toString positive.sequence ++
          " 0 " ++ cap_tx,
        "V" ++ toString negative.sequence ++ " netb_" ++ toString negative.sequence ++
          " 0 PULSE(0 -0.5*" ++ "0.8V" ++ " 1e-10 " ++ t_rise ++ " " ++ t_rise ++ " " ++
          ui ++ " 1.5e+100)",
        "R" ++ toString negative.sequence ++ " netb_" ++ toString negative.sequence ++
          " net_" ++ toString negative.sequence ++ " " ++ res_tx,
        "C" ++ toString negative.sequence ++ " netb_" ++ toString negative.sequence ++
          " 0 " ++ cap_tx ] ∧
    ampValue "0.5*0.8V" = some (2 / 5) ∧
    ampValue "-0.5*0.8V" = some (-(2 / 5)) ∧
    (2 / 5 : ℚ) = 0.5 * 0.8 ∧ (2 / 5 : ℚ) = 0.4 := by
  refine ⟨rfl, ?_, ?_, by norm_num, by norm_num⟩
  · have h : ampValue "0.5*0.8V" =
        some ((1 : ℚ) * (((0 : ℕ) : ℚ) + ((5 : ℕ) : ℚ) / 10 ^ 1) *
          ((1 : ℚ) * (((0 : ℕ) : ℚ) + ((8 : ℕ) : ℚ) / 10 ^ 1) * 1)) := rfl
    rw [h]
    norm_num
  · have h : ampValue "-0.5*0.8V" =
        some ((-1 : ℚ) * (((0 : ℕ) : ℚ) + ((5 : ℕ) : ℚ) / 10 ^ 1) *
          ((1 : ℚ) * (((0 : ℕ) : ℚ) + ((8 : ℕ) : ℚ) / 10 ^ 1) * 1)) := rfl
    rw [h]
    norm_num

/-! ## Helper lemmas about classification and the kept set -/

theorem afind_some_mem {κ β : Type} [DecidableEq κ] (l : List (κ × β)) (k : κ) (v : β)
    (h : afind l k = some v) : v ∈ l.map Prod.snd := by
  induction l with
  | nil => simp [afind] at h
  | cons kv rest ih =>
    obtain ⟨k', v'⟩ := kv
    unfold afind at h
    by_cases hk : k' = k
    · rw [if_pos hk] at h
      simp only [Option.some.injEq] at h
      subst h
      exact List.mem_map_of_mem Prod.snd (List.mem_cons_self _ _)
    · rw [if_neg hk] at h
      exact List.mem_cons_of_mem _ (ih h)

theorem groupsUpdate_snd_mem (k : String × String) (pol : String) (e : PortMetadata) :
    ∀ (gs : List ((String × String) × List (String × PortMetadata)))
      (kb : (String × String) × List (String × PortMetadata)),
      kb ∈ groupsUpdate gs k pol e → ∀ pe : String × PortMetadata, pe ∈ kb.2 →
      pe.2 = e ∨ ∃ kb', kb' ∈ gs ∧ pe ∈ kb'.2 := by
  intro gs
  induction gs with
  | nil =>
    intro kb hkb pe hpe
    simp only [groupsUpdate, List.mem_singleton] at hkb
    subst hkb
    simp only [List.mem_singleton] at hpe
    subst hpe
    exact Or.inl rfl
  | cons kb0 rest ih =>
    intro kb hkb pe hpe
    obtain ⟨k', b⟩ := kb0
    unfold groupsUpdate at hkb
    by_cases hk : k' = k
    · rw [if_pos hk] at hkb
      rcases List.mem_cons.mp hkb with h1 | h2
      · subst h1
        rcases List.mem_cons.mp hpe with h3 | h4
        · subst h3; exact Or.inl rfl
        · exact Or.inr ⟨(k', b), List.mem_cons_self _ _, h4⟩
      · exact Or.inr ⟨kb, List.mem_cons_of_mem _ h2, hpe⟩
    · rw [if_neg hk] at hkb
      rcases List.mem_cons.mp hkb with h1 | h2
      · subst h1
        exact Or.inr ⟨(k', b), List.mem_cons_self _ _, hpe⟩
      · rcases ih kb h2 pe hpe with h3 | ⟨kb', hkb', hpe'⟩
        · exact Or.inl h3
        · exact Or.inr ⟨kb', List.mem_cons_of_mem _ hkb', hpe'⟩

theorem diffStep_snd_mem (role : String)
    (gs : List ((String × String) × List (String × PortMetadata))) (e : PortMetadata)
    (kb : (String × String) × List (String × PortMetadata)) (hkb : kb ∈ diffStep role gs e)
    (pe : String × PortMetadata) (hpe : pe ∈ kb.2) :
    pe.2 = e ∨ ∃ kb', kb' ∈ gs ∧ pe ∈ kb'.2 := by
  unfold diffStep at hkb
  by_cases hc : (e.component_role == role && e.net_type == "differential") = true
  · rw [if_pos hc] at hkb
    exact groupsUpdate_snd_mem _ _ e gs kb hkb pe hpe
  · rw [if_neg hc] at hkb
    exact Or.inr ⟨kb, hkb, hpe⟩

theorem foldl_diffStep_snd_mem (role : String) (l : List PortMetadata) :
    ∀ (gs : List ((String × String) × List (String × PortMetadata)))
      (kb : (String × String) × List (String × PortMetadata))
      (hkb : kb ∈ l.foldl (diffStep role) gs) (pe : String × PortMetadata) (hpe : pe ∈ kb.2),
      (∃ kb', kb' ∈ gs ∧ pe ∈ kb'.2) ∨ pe.2 ∈ l := by
  induction l with
  | nil =>
    intro gs kb hkb pe hpe
    exact Or.inl ⟨kb, hkb, hpe⟩
  | cons e l ih =>
    intro gs kb hkb pe hpe
    rw [List.foldl_cons] at hkb
    rcases ih (diffStep role gs e) kb hkb pe hpe with ⟨kb', hkb', hpe'⟩ | h2
    · rcases diffStep_snd_mem role gs e kb' hkb' pe hpe' with h3 | ⟨kb'', hkb'', hpe''⟩
      · exact Or.inr (h3 ▸ List.mem_cons_self _ _)
      · exact Or.inl ⟨kb'', hkb'', hpe''⟩
    · exact Or.inr (List.mem_cons_of_mem e h2)

/-- Every member of a matched differential pair is one of the source
entries. -/
theorem mem_group_differential (role : String) (source : List PortMetadata)
    (pn : PortMetadata × PortMetadata) (h : pn ∈ group_differential role source) :
    pn.1 ∈ source ∧ pn.2 ∈ source := by
  unfold group_differential at h
  rw [(List.perm_insertionSort pairLE _).mem_iff] at h
  rw [List.mem_filterMap] at h
  obtain ⟨kb, hkb, hf⟩ := h
  rcases hpos : afind kb.2 "positive" with _ | pos
  · rw [hpos] at hf; exact absurd hf (by simp)
  rcases hneg : afind kb.2 "negative" with _ | neg
  · rw [hpos, hneg] at hf; exact absurd hf (by simp)
  rw [hpos, hneg] at hf
  simp only [Option.some.injEq] at hf
  subst hf
  have hpos' := afind_some_mem kb.2 "positive" pos hpos
  have hneg' := afind_some_mem kb.2 "negative" neg hneg
  rw [List.mem_map] at hpos' hneg'
  obtain ⟨pep, hpep, hpep2⟩ := hpos'
  obtain ⟨pen, hpen, hpen2⟩ := hneg'
  constructor
  · rcases foldl_diffStep_snd_mem role source [] kb hkb pep hpep with ⟨kb', hkb', _⟩ | h2
    · exact absurd hkb' (List.not_mem_nil _)
    · exact hpep2 ▸ h2
  · rcases foldl_diffStep_snd_mem role source [] kb hkb pen hpen with ⟨kb', hkb', _⟩ | h2
    · exact absurd hkb' (List.not_mem_nil _)
    · exact hpen2 ▸ h2

theorem mem_tx_single_entries (entries : List PortMetadata) (e : PortMetadata)
    (h : e ∈ tx_single_entries entries) : e ∈ entries := by
  unfold tx_single_entries sortBySeq at h
  rw [(List.perm_insertionSort seqLE _).mem_iff] at h
  exact List.mem_of_mem_filter h

/-- Loaded metadata carries sequence numbers inside `1..N`. -/
theorem seq_mem_Icc (entries : List PortMetadata) (hwf : SeqWF entries) (e : PortMetadata)
    (h : e ∈ entries) : e.sequence ∈ Finset.Icc 1 entries.length := by
  have h2 : e.sequence ∈ entries.map (fun x => x.sequence) :=
    List.mem_map_of_mem (fun x => x.sequence) h
  rw [hwf, List.mem_range'_1] at h2
  rw [Finset.mem_Icc]
  omega

theorem controllerSeqs_subset_Icc (entries : List PortMetadata) (hwf : SeqWF entries) :
    controllerSeqs entries ⊆ Finset.Icc 1 entries.length := by
  intro x hx
  unfold controllerSeqs at hx
  rw [List.mem_toFinset, List.mem_append] at hx
  rcases hx with h1 | h2
  · rw [List.mem_map] at h1
    obtain ⟨e, he, rfl⟩ := h1
    exact seq_mem_Icc entries hwf e (mem_tx_single_entries entries e he)
  · rw [List.mem_flatMap] at h2
    obtain ⟨pn, hpn, hx⟩ := h2
    have hmem := mem_group_differential "controller" entries pn hpn
    simp only [List.mem_cons, List.not_mem_nil, or_false, List.mem_singleton] at hx
    rcases hx with rfl | rfl
    · exact seq_mem_Icc entries hwf pn.1 hmem.1
    · exact seq_mem_Icc entries hwf pn.2 hmem.2

theorem defensiveCtrl_eq (ctrl k : Finset ℕ) : defensiveCtrl ctrl k = k ∪ ctrl := by
  unfold defensiveCtrl
  by_cases h : ctrl ⊆ k
  · rw [if_neg (by simpa using h), Finset.union_eq_left.mpr h]
  · rw [if_pos (by simpa using h)]

theorem foldl_keep_extensive {β : Type} (p : β → Bool) (upd : β → Finset ℕ → Finset ℕ)
    (hext : ∀ b s, s ⊆ upd b s) (l : List β) :
    ∀ s : Finset ℕ, s ⊆ l.foldl (fun acc e => if p e then upd e acc else acc) s := by
  induction l with
  | nil => intro s; simp
  | cons e l ih =>
    intro s
    rw [List.foldl_cons]
    by_cases hp : p e = true
    · rw [if_pos hp]
      exact (hext e s).trans (ih (upd e s))
    · rw [if_neg hp]
      exact ih s

theorem foldl_keep_mono {β : Type} (p q : β → Bool) (upd : β → Finset ℕ → Finset ℕ)
    (hmono : ∀ (b : β) (s t : Finset ℕ), s ⊆ t → upd b s ⊆ upd b t)
    (hext : ∀ b s, s ⊆ upd b s) (hpq : ∀ b, p b = true → q b = true) (l : List β) :
    ∀ (s t : Finset ℕ), s ⊆ t →
      l.foldl (fun acc e => if p e then upd e acc else acc) s ⊆
        l.foldl (fun acc e => if q e then upd e acc else acc) t := by
  induction l with
  | nil => intro s t h; simpa using h
  | cons e l ih =>
    intro s t h
    rw [List.foldl_cons, List.foldl_cons]
    by_cases hp : p e = true
    · rw [if_pos hp, if_pos (hpq e hp)]
      exact ih _ _ (hmono e _ _ h)
    · rw [if_neg hp]
      by_cases hq : q e = true
      · rw [if_pos hq]
        exact ih _ _ (h.trans (hext e t))
      · rw [if_neg hq]
        exact ih _ _ h

theorem foldl_keep_congr_all {β : Type} (p : β → Bool) (upd : β → Finset ℕ → Finset ℕ)
    (l : List β) (hall : ∀ b ∈ l, p b = true) :
    ∀ s : Finset ℕ, l.foldl (fun acc e => if p e then upd e acc else acc) s =
      l.foldl (fun acc e => upd e acc) s := by
  induction l with
  | nil => intro s; rfl
  | cons e l ih =>
    intro s
    rw [List.foldl_cons, List.foldl_cons, if_pos (hall e (List.mem_cons_self _ _))]
    exact ih (fun b hb => hall b (List.mem_cons_of_mem e hb)) (upd e s)

theorem foldl_insert_eq {β : Type} (f : β → ℕ) (l : List β) :
    ∀ s : Finset ℕ, l.foldl (fun acc e => insert (f e) acc) s = s ∪ (l.map f).toFinset := by
  induction l with
  | nil => intro s; simp
  | cons e l ih =>
    intro s
    rw [List.foldl_cons, ih (insert (f e) s)]
    ext x
    simp only [Finset.mem_union, Finset.mem_insert, List.mem_toFinset, List.map_cons,
      List.mem_cons]
    tauto

theorem foldl_insert2_eq {β : Type} (f g : β → ℕ) (l : List β) :
    ∀ s : Finset ℕ, l.foldl (fun acc e => insert (f e) (insert (g e) acc)) s =
      s ∪ (l.flatMap (fun e => [f e, g e])).toFinset := by
  induction l with
  | nil => intro s; simp
  | cons e l ih =>
    intro s
    rw [List.foldl_cons, ih (insert (f e) (insert (g e) s))]
    ext x
    simp only [Finset.mem_union, Finset.mem_insert, List.mem_toFinset, List.flatMap_cons,
      List.mem_append, List.mem_cons, List.not_mem_nil, or_false, List.mem_flatMap,
      List.mem_singleton]
    aesop

theorem keepRxSingle_mono (entries : List PortMetadata) (net : Network) (tx : TxGroup)
    (txIdxs : List ℕ) (e : PortMetadata) {A B : WithBot ℚ} (hAB : A ≤ B)
    (h : keepRxSingle entries net B tx txIdxs e = true) :
    keepRxSingle entries net A tx txIdxs e = true := by
  unfold keepRxSingle at h ⊢
  rw [Bool.or_eq_true] at h ⊢
  rcases h with h1 | h2
  · exact Or.inl h1
  · exact Or.inr (decide_eq_true (le_trans hAB (of_decide_eq_true h2)))

theorem keepRxDiff_mono (entries : List PortMetadata) (net : Network) (tx : TxGroup)
    (txIdxs : List ℕ) (pn : PortMetadata × PortMetadata) {A B : WithBot ℚ} (hAB : A ≤ B)
    (h : keepRxDiff entries net B tx txIdxs pn = true) :
    keepRxDiff entries net A tx txIdxs pn = true := by
  unfold keepRxDiff at h ⊢
  rw [Bool.or_eq_true] at h ⊢
  rcases h with h1 | h2
  · exact Or.inl h1
  · exact Or.inr (decide_eq_true (le_trans hAB (of_decide_eq_true h2)))

theorem keepRxSingle_bot (entries : List PortMetadata) (net : Network) (tx : TxGroup)
    (txIdxs : List ℕ) (e : PortMetadata) :
    keepRxSingle entries net ⊥ tx txIdxs e = true := by
  unfold keepRxSingle
  rw [Bool.or_eq_true]
  exact Or.inr (decide_eq_true bot_le)

theorem keepRxDiff_bot (entries : List PortMetadata) (net : Network) (tx : TxGroup)
    (txIdxs : List ℕ) (pn : PortMetadata × PortMetadata) :
    keepRxDiff entries net ⊥ tx txIdxs pn = true := by
  unfold keepRxDiff
  rw [Bool.or_eq_true]
  exact Or.inr (decide_eq_true bot_le)

/-- Threshold monotonicity of the thresholded kept set. -/
theorem keptThreshold_mono (entries : List PortMetadata) (net : Network) {A B : WithBot ℚ}
    (hAB : A ≤ B) (tx : TxGroup) :
    keptThreshold entries net B tx ⊆ keptThreshold entries net A tx := by
  unfold keptThreshold
  rw [defensiveCtrl_eq, defensiveCtrl_eq]
  refine Finset.union_subset_union ?_ (Finset.Subset.refl _)
  refine foldl_keep_mono
    (fun pn => keepRxDiff entries net B tx ((txSeqsOf tx).map (fun s => s - 1)) pn)
    (fun pn => keepRxDiff entries net A tx ((txSeqsOf tx).map (fun s => s - 1)) pn)
    (fun pn acc => insert pn.1.sequence (insert pn.2.sequence acc))
    (fun pn s t h => Finset.insert_subset_insert _ (Finset.insert_subset_insert _ h))
    (fun pn s => (Finset.subset_insert _ s).trans (Finset.subset_insert _ _))
    (fun pn h => keepRxDiff_mono entries net tx _ pn hAB h)
    (rx_diff_entries entries) _ _ ?_
  refine foldl_keep_mono
    (fun e => keepRxSingle entries net B tx ((txSeqsOf tx).map (fun s => s - 1)) e)
    (fun e => keepRxSingle entries net A tx ((txSeqsOf tx).map (fun s => s - 1)) e)
    (fun e acc => insert e.sequence acc)
    (fun e s t h => Finset.insert_subset_insert _ h)
    (fun e s => Finset.subset_insert _ s)
    (fun e h => keepRxSingle_mono entries net tx _ e hAB h)
    (rx_single_entries entries) _ _ (Finset.Subset.refl _)

/-- The controller sequences are contained in every kept set. -/
theorem ctrl_subset_computeKept (entries : List PortMetadata) (netOpt : Option Network)
    (thrOpt : Option (WithBot ℚ)) (tx : TxGroup) :
    controllerSeqs entries ⊆ computeKept entries netOpt thrOpt tx := by
  cases thrOpt with
  | none => cases netOpt <;> exact Finset.subset_union_left
  | some thr =>
    cases netOpt with
    | none => exact Finset.subset_union_left
    | some net =>
      show controllerSeqs entries ⊆ keptThreshold entries net thr tx
      unfold keptThreshold
      rw [defensiveCtrl_eq]
      exact Finset.subset_union_right

/-- With an unset threshold or no network backend, the kept set is all of
`1..N`. -/
theorem computeKept_default_eq (entries : List PortMetadata) (tx : TxGroup)
    (hwf : SeqWF entries) :
    (∀ netOpt : Option Network,
      computeKept entries netOpt none tx = Finset.Icc 1 entries.length) ∧
    (∀ thrOpt : Option (WithBot ℚ),
      computeKept entries none thrOpt tx = Finset.Icc 1 entries.length) := by
  have h : controllerSeqs entries ∪ Finset.Icc 1 entries.length =
      Finset.Icc 1 entries.length :=
    Finset.union_eq_right.mpr (controllerSeqs_subset_Icc entries hwf)
  constructor
  · intro netOpt; cases netOpt <;> exact h
  · intro thrOpt; cases thrOpt <;> exact h

/-- At threshold `-inf` with a network available, every RX group passes the
keep decision: the kept set is the controller sequences together with all RX
single sequences and both legs of all RX differential pairs. -/
theorem keptThreshold_bot_eq (entries : List PortMetadata) (net : Network) (tx : TxGroup) :
    keptThreshold entries net ⊥ tx =
      controllerSeqs entries ∪
        ((rx_single_entries entries).map (fun e => e.sequence)).toFinset ∪
        ((rx_diff_entries entries).flatMap (fun pn => [pn.1.sequence, pn.2.sequence])).toFinset := by
  unfold keptThreshold
  rw [defensiveCtrl_eq]
  rw [foldl_keep_congr_all
    (fun e => keepRxSingle entries net ⊥ tx ((txSeqsOf tx).map (fun s => s - 1)) e)
    (fun e acc => insert e.sequence acc) (rx_single_entries entries)
    (fun e _ => keepRxSingle_bot entries net tx _ e) (controllerSeqs entries)]
  rw [foldl_insert_eq (fun e => e.sequence) (rx_single_entries entries) (controllerSeqs entries)]
  rw [foldl_keep_congr_all
    (fun pn => keepRxDiff entries net ⊥ tx ((txSeqsOf tx).map (fun s => s - 1)) pn)
    (fun pn acc => insert pn.1.sequence (insert pn.2.sequence acc)) (rx_diff_entries entries)
    (fun pn _ => keepRxDiff_bot entries net tx _ pn) _]
  rw [foldl_insert2_eq (fun pn => pn.1.sequence) (fun pn => pn.2.sequence)
    (rx_diff_entries entries) _]
  ext x
  simp only [Finset.mem_union]
  tauto

/-! ## Claim theorems for pruning (C1, C2, C3) -/

/-- C1: monotone pruning.  With the network available and both electrical
configurations set, lowering the threshold from `B` to `A ≤ B` can only grow
the kept-sequence set computed by the prune computation: the kept set at `B`
is a subset of the kept set at `A` (equivalently, the kept set at `A` is a
superset), for every TX group. -/
theorem prune_monotone (st : CState) (net : Network) (A B : WithBot ℚ)
    (hnet : st.network = some net) (htx : st.tx_config.isNone = false)
    (hrx : st.rx_config.isNone = false) (hAB : A ≤ B) (tx : TxGroup) :
    keptOf (compute_prune (set_threshold st (some B)) tx) ⊆
      keptOf (compute_prune (set_threshold st (some A)) tx) := by
  unfold compute_prune set_threshold
  simp only [htx, hrx, Bool.or_self, Bool.false_eq_true, if_false]
  show computeKept st.port_metadata st.network (some B) tx ⊆
    computeKept st.port_metadata st.network (some A) tx
  rw [hnet]
  exact keptThreshold_mono st.port_metadata net hAB tx

/-- Witness for C1 at a concrete engine state: threshold `0 dB` prunes to a
subset of what threshold `-10 dB` keeps. -/
theorem prune_monotone_witness :
    keptOf (compute_prune (set_threshold exState (some ((0 : ℚ) : WithBot ℚ)))
        (TxGroup.single exCtrlSingle)) ⊆
      keptOf (compute_prune (set_threshold exState (some ((-10 : ℚ) : WithBot ℚ)))
        (TxGroup.single exCtrlSingle)) :=
  prune_monotone exState exNet ((-10 : ℚ) : WithBot ℚ) ((0 : ℚ) : WithBot ℚ)
    rfl rfl rfl (by decide) (TxGroup.single exCtrlSingle)

/-- C2 counterexample: with the threshold set to `-inf` and a network
backend available, a port whose role is unrecognized belongs to no RX group
and is pruned, so the kept set is not all of `1..N`. -/
theorem minus_inf_threshold_not_all_ports :
    TxGroup.single exCtrlSingle ∈ txsOf [exCtrlSingle, exUnknown] ∧
    SeqWF [exCtrlSingle, exUnknown] ∧
    computeKept [exCtrlSingle, exUnknown] (some exNet) (some ⊥)
        (TxGroup.single exCtrlSingle) ≠
      Finset.Icc 1 ([exCtrlSingle, exUnknown] : List PortMetadata).length := by
  decide

/-- C2 amended: with the threshold unset — or no network backend available —
the kept set is all port sequences `1..N`; with the threshold equal to
`-inf` and a network available, the kept set is the controller sequences
together with every RX single sequence and both legs of every RX
differential pair, which is all of `1..N` only when every port is so
classified. -/
theorem kept_all_characterization (entries : List PortMetadata) (tx : TxGroup)
    (hwf : SeqWF entries) :
    (∀ netOpt : Option Network,
      computeKept entries netOpt none tx = Finset.Icc 1 entries.length) ∧
    (∀ thrOpt : Option (WithBot ℚ),
      computeKept entries none thrOpt tx = Finset.Icc 1 entries.length) ∧
    (∀ net : Network,
      computeKept entries (some net) (some ⊥) tx =
        controllerSeqs entries ∪
          ((rx_single_entries entries).map (fun e => e.sequence)).toFinset ∪
          ((rx_diff_entries entries).flatMap
            (fun pn => [pn.1.sequence, pn.2.sequence])).toFinset) :=
  ⟨(computeKept_default_eq entries tx hwf).1, (computeKept_default_eq entries tx hwf).2,
    fun net => keptThreshold_bot_eq entries net tx⟩

/-- Witness for C2's amended statement at a concrete loaded state. -/
theorem kept_all_characterization_witness :
    computeKept [exCtrlSingle, exDramA] none none (TxGroup.single exCtrlSingle) =
      Finset.Icc 1 ([exCtrlSingle, exDramA] : List PortMetadata).length :=
  (kept_all_characterization [exCtrlSingle, exDramA] (TxGroup.single exCtrlSingle)
    (by decide)).2.1 none

/-- C3 counterexample: a controller-role differential leg whose pair partner
is missing is classified into no TX group, so it is not in
`_controller_sequences` and gets pruned under a finite threshold even though
its role is controller. -/
theorem controller_diff_leg_pruned :
    exCtrlDiffLeg.component_role = "controller" ∧
    TxGroup.single exCtrlSingle ∈ txsOf [exCtrlSingle, exCtrlDiffLeg] ∧
    SeqWF [exCtrlSingle, exCtrlDiffLeg] ∧
    exCtrlDiffLeg.sequence ∉
      computeKept [exCtrlSingle, exCtrlDiffLeg] (some exNet) (some ((0 : ℚ) : WithBot ℚ))
        (TxGroup.single exCtrlSingle) := by
  decide

/-- C3 amended: every *classified* controller sequence — the single-ended
controller ports and both legs of every matched controller differential
pair — is in the kept set of every prune computation, for every threshold
and network; an unpaired controller differential leg enjoys no such
protection. -/
theorem classified_controller_never_pruned (entries : List PortMetadata)
    (netOpt : Option Network) (thrOpt : Option (WithBot ℚ)) (tx : TxGroup) :
    controllerSeqs entries ⊆ computeKept entries netOpt thrOpt tx ∧
    (∀ e ∈ tx_single_entries entries,
      e.sequence ∈ computeKept entries netOpt thrOpt tx) ∧
    (∀ pn ∈ tx_diff_entries entries,
      pn.1.sequence ∈ computeKept entries netOpt thrOpt tx ∧
      pn.2.sequence ∈ computeKept entries netOpt thrOpt tx) := by
  have hsub := ctrl_subset_computeKept entries netOpt thrOpt tx
  refine ⟨hsub, ?_, ?_⟩
  · intro e he
    refine hsub ?_
    unfold controllerSeqs
    rw [List.mem_toFinset, List.mem_append]
    exact Or.inl (List.mem_map_of_mem (fun x => x.sequence) he)
  · intro pn hpn
    constructor
    · refine hsub ?_
      unfold controllerSeqs
      rw [List.mem_toFinset, List.mem_append]
      refine Or.inr (List.mem_flatMap.mpr ⟨pn, hpn, ?_⟩)
      exact List.mem_cons_self _ _
    · refine hsub ?_
      unfold controllerSeqs
      rw [List.mem_toFinset, List.mem_append]
      refine Or.inr (List.mem_flatMap.mpr ⟨pn, hpn, ?_⟩)
      exact List.mem_cons_of_mem _ (List.mem_cons_self _ _)

/-- Witness for C3's amended statement at a concrete input. -/
theorem classified_controller_never_pruned_witness :
    exCtrlSingle.sequence ∈
      computeKept [exCtrlSingle, exDramA] none none (TxGroup.single exCtrlSingle) :=
  (classified_controller_never_pruned [exCtrlSingle, exDramA] none none
    (TxGroup.single exCtrlSingle)).2.1 exCtrlSingle (by decide)

/-! ## The one-time warning and keep-all degradation (C9) -/

theorem ensure_prune_hit (st : CState) (tx : TxGroup) (kept : Finset ℕ)
    (h : afind st.prune_cache (tx_to_key tx) = some kept) :
    ensure_prune st tx = Except.ok ((kept, false), st) := by
  unfold ensure_prune
  rw [h]

theorem ensure_prune_miss (st : CState) (tx : TxGroup)
    (hfind : afind st.prune_cache (tx_to_key tx) = none)
    (htx : st.tx_config.isNone = false) (hrx : st.rx_config.isNone = false) :
    ensure_prune st tx = Except.ok
      ((computeKept st.port_metadata st.network st.threshold_db tx, warnFlag st),
        { st with prune_warning_emitted := st.prune_warning_emitted || warnFlag st,
                  prune_cache := (tx_to_key tx,
                    computeKept st.port_metadata st.network st.threshold_db tx) ::
                      st.prune_cache }) := by
  unfold ensure_prune compute_prune
  rw [hfind, htx, hrx]
  rfl

theorem run_ensures_cons_ok (st : CState) (tx : TxGroup) (rest : List TxGroup)
    (kept : Finset ℕ) (warn : Bool) (st' : CState)
    (h : ensure_prune st tx = Except.ok ((kept, warn), st')) :
    run_ensures st (tx :: rest) =
      ((warn, kept) :: (run_ensures st' rest).1, (run_ensures st' rest).2) := by
  simp only [run_ensures]
  rw [h]

/-- Once the warning flag is set, any further sequence of prune computations
on a no-network engine neither prints the warning again nor returns anything
but the keep-all set. -/
theorem run_ensures_after_warned (txs : List TxGroup) :
    ∀ st : CState, st.network = none → st.tx_config.isNone = false →
      st.rx_config.isNone = false → st.prune_warning_emitted = true →
      (∀ kv ∈ st.prune_cache, kv.2 = Finset.Icc 1 st.port_metadata.length) →
      SeqWF st.port_metadata →
      ∀ p ∈ (run_ensures st txs).1,
        p.1 = false ∧ p.2 = Finset.Icc 1 st.port_metadata.length := by
  induction txs with
  | nil =>
    intro st _ _ _ _ _ _ p hp
    simp [run_ensures] at hp
  | cons tx rest ih =>
    intro st hnet htx hrx hw hcache hwf p hp
    cases hfind : afind st.prune_cache (tx_to_key tx) with
    | some kept =>
      rw [run_ensures_cons_ok st tx rest kept false st (ensure_prune_hit st tx kept hfind)]
        at hp
      rcases List.mem_cons.mp hp with h1 | h2
      · subst h1
        refine ⟨rfl, ?_⟩
        have hmem := afind_some_mem _ _ _ hfind
        rw [List.mem_map] at hmem
        obtain ⟨kv, hkv, hkv2⟩ := hmem
        exact hkv2 ▸ hcache kv hkv
      · exact ih st hnet htx hrx hw hcache hwf p h2
    | none =>
      have hwflag : warnFlag st = false := by
        unfold warnFlag
        rw [hw]
        simp
      have hok := ensure_prune_miss st tx hfind htx hrx
      rw [hwflag] at hok
      rw [run_ensures_cons_ok st tx rest _ false _ hok] at hp
      have hkept : computeKept st.port_metadata st.network st.threshold_db tx =
          Finset.Icc 1 st.port_metadata.length := by
        rw [hnet]
        exact (computeKept_default_eq st.port_metadata tx hwf).2 st.threshold_db
      rcases List.mem_cons.mp hp with h1 | h2
      · subst h1
        exact ⟨rfl, hkept⟩
      · have := ih _ (by simpa using hnet) (by simpa using htx) (by simpa using hrx)
          (by simp [hw]) ?_ (by simpa using hwf) p h2
        · simpa using this
        · intro kv hkv
          rcases List.mem_cons.mp hkv with h3 | h4
          · subst h3
            simpa using hkept
          · simpa using hcache kv h4

/-- C9: starting from a configured engine whose threshold is set, whose
network backend is unavailable, whose cache is empty and whose warning flag
is clear (the state of a fresh instance after `set_txs`/`set_rxs`), every
prune computation in any sequence keeps all ports `1..N`, and the
"pruning disabled" warning is printed on the first computation of the
sequence and on no later one. -/
theorem prune_warning_once (st : CState) (txs : List TxGroup)
    (hnet : st.network = none) (hthr : st.threshold_db.isNone = false)
    (htx : st.tx_config.isNone = false) (hrx : st.rx_config.isNone = false)
    (hw : st.prune_warning_emitted = false) (hcache : st.prune_cache = [])
    (hwf : SeqWF st.port_metadata) :
    (∀ p ∈ (run_ensures st txs).1, p.2 = Finset.Icc 1 st.port_metadata.length) ∧
    (∀ tx0 rest0, txs = tx0 :: rest0 →
      ∃ tl, (run_ensures st txs).1 =
        (true, Finset.Icc 1 st.port_metadata.length) :: tl ∧ ∀ p ∈ tl, p.1 = false) := by
  cases txs with
  | nil =>
    constructor
    · intro p hp
      simp [run_ensures] at hp
    · intro tx0 rest0 h
      cases h
  | cons tx rest =>
    have hfind : afind st.prune_cache (tx_to_key tx) = none := by
      rw [hcache]
      rfl
    have hwflag : warnFlag st = true := by
      unfold warnFlag
      rw [hthr, hnet, hw]
      rfl
    have hkept : computeKept st.port_metadata st.network st.threshold_db tx =
        Finset.Icc 1 st.port_metadata.length := by
      rw [hnet]
      exact (computeKept_default_eq st.port_metadata tx hwf).2 st.threshold_db
    have hok := ensure_prune_miss st tx hfind htx hrx
    rw [hwflag, hkept] at hok
    rw [run_ensures_cons_ok st tx rest _ true _ hok]
    have htail := run_ensures_after_warned rest
      { st with prune_warning_emitted := st.prune_warning_emitted || true,
                prune_cache := (tx_to_key tx, Finset.Icc 1 st.port_metadata.length) ::
                  st.prune_cache }
      (by simpa using hnet) (by simpa using htx) (by simpa using hrx)
      (by simp) ?_ (by simpa using hwf)
    · constructor
      · intro p hp
        rcases List.mem_cons.mp hp with h1 | h2
        · subst h1; rfl
        · exact (htail p h2).2
      · intro tx0 rest0 _
        exact ⟨_, rfl, fun p hp => (htail p hp).1⟩
    · intro kv hkv
      rcases List.mem_cons.mp hkv with h3 | h4
      · subst h3; rfl
      · rw [hcache] at h4
        exact absurd h4 (List.not_mem_nil _)

/-! ## The sliding-window energy algorithm (C7, C8) -/

theorem sorted_le_getD_le (t : List ℚ) (hsort : List.Sorted (· ≤ ·) t) {i j : ℕ}
    (hij : i ≤ j) (hj : j < t.length) : t.getD i 0 ≤ t.getD j 0 := by
  rcases Nat.lt_or_ge i j with h | h
  · rw [List.getD_eq_getElem t 0 (lt_trans h hj), List.getD_eq_getElem t 0 hj]
    exact List.pairwise_iff_getElem.mp hsort i j (lt_trans h hj) hj h
  · have : i = j := le_antisymm hij h
    subst this
    exact le_refl _

theorem sorted_le_getD_last (t : List ℚ) (hsort : List.Sorted (· ≤ ·) t) (k : ℕ)
    (hk : k < t.length) : t.getD k 0 ≤ t.getD (t.length - 1) 0 :=
  sorted_le_getD_le t hsort (by omega) (by omega)

theorem advanceJ_reaches (t : List ℚ) (tEnd : ℚ)
    (hmax : ∀ k, k < t.length → t.getD k 0 ≤ tEnd) :
    ∀ (fuel j : ℕ), j < t.length → t.length - 1 - j ≤ fuel →
      advanceJ t tEnd fuel j = t.length - 1 := by
  intro fuel
  induction fuel with
  | zero =>
    intro j hj hf
    show j = t.length - 1
    omega
  | succ fuel ih =>
    intro j hj hf
    show (if j + 1 < t.length ∧ t.getD (j + 1) 0 ≤ tEnd then advanceJ t tEnd fuel (j + 1)
          else j) = t.length - 1
    by_cases hc : j + 1 < t.length
    · rw [if_pos ⟨hc, hmax (j + 1) hc⟩]
      exact ih (j + 1) hc (by omega)
    · rw [if_neg (fun h => hc h.1)]
      omega

theorem trapAt_replicate (t : List ℚ) (H : ℚ) :
    ∀ k : ℕ, k < t.length →
      trapAt t (List.replicate t.length H) k = H * (t.getD k 0 - t.getD 0 0) := by
  have hrep : ∀ i, i < t.length → (List.replicate t.length H).getD i 0 = H := by
    intro i hi
    rw [List.getD_eq_getElem _ _ (by simpa using hi), List.getElem_replicate]
  intro k
  induction k with
  | zero =>
    intro _
    unfold trapAt
    rw [Finset.sum_range_zero]
    ring
  | succ k ih =>
    intro hk
    have hk' : k < t.length := by omega
    unfold trapAt at ih ⊢
    rw [Finset.sum_range_succ, ih hk', hrep k hk', hrep (k + 1) hk]
    ring

theorem trapAt_zero (t v : List ℚ) : trapAt t v 0 = 0 := by
  unfold trapAt
  simp

theorem trapAbsAt_zero (t v : List ℚ) : trapAbsAt t v 0 = 0 := by
  unfold trapAbsAt
  simp

theorem endCorrection_last (t v : List ℚ) (te : ℚ) :
    endCorrection t v (t.length - 1) te = 0 ∧ endCorrectionAbs t v (t.length - 1) te = 0 := by
  constructor
  · unfold endCorrection
    rw [if_neg (fun h => by omega)]
  · unfold endCorrectionAbs
    rw [if_neg (fun h => by omega)]

theorem sortPairs_sorted_eq (tl vl : List ℚ) (hsort : List.Sorted (· ≤ ·) tl)
    (hlen : tl.length = vl.length) : sortPairs (tl.zip vl) = tl.zip vl := by
  apply List.Sorted.insertionSort_eq
  rw [List.Sorted, List.pairwise_iff_getElem]
  intro i j hi hj hij
  have hj' : j < tl.length := by
    rw [List.length_zip] at hj
    omega
  show leFst (tl.zip vl)[i] (tl.zip vl)[j]
  rw [List.getElem_zip, List.getElem_zip]
  show tl[i] ≤ tl[j]
  exact List.pairwise_iff_getElem.mp hsort i j (lt_trans hij hj') hj' hij

theorem countLE_le_length (t : List ℚ) (x : ℚ) : countLE t x ≤ t.length :=
  List.length_filter_le _ _

/-- On a sorted array, the first `searchsorted` count of entries are all
below the key. -/
theorem getD_le_of_lt_countLE (x : ℚ) :
    ∀ t : List ℚ, List.Sorted (· ≤ ·) t → ∀ i, i < countLE t x → t.getD i 0 ≤ x := by
  intro t
  induction t with
  | nil =>
    intro _ i hi
    simp [countLE] at hi
  | cons a rest ih =>
    intro hsort i hi
    obtain ⟨ha, hrest⟩ := List.sorted_cons.mp hsort
    by_cases hax : a ≤ x
    · unfold countLE at hi
      rw [List.filter_cons_of_pos (p := fun b => decide (b ≤ x)) (decide_eq_true hax)] at hi
      cases i with
      | zero =>
        rw [List.getD_cons_zero]
        exact hax
      | succ k =>
        rw [List.getD_cons_succ]
        refine ih hrest k ?_
        unfold countLE
        rw [List.length_cons] at hi
        omega
    · exfalso
      unfold countLE at hi
      rw [List.filter_cons_of_neg (p := fun b => decide (b ≤ x)) (by simp [hax]),
        List.filter_eq_nil_iff.mpr ?_] at hi
      · simp at hi
      · intro b hb
        simp only [decide_eq_true_eq]
        intro hbx
        exact hax (le_trans (ha b hb) hbx)

/-- The two-pointer advance never moves past the final index. -/
theorem advanceJ_stay (t : List ℚ) (tEnd : ℚ) (j : ℕ) (hj : ¬ (j + 1 < t.length)) :
    ∀ fuel, advanceJ t tEnd fuel j = j := by
  intro fuel
  cases fuel with
  | zero => rfl
  | succ fuel =>
    show (if j + 1 < t.length ∧ t.getD (j + 1) 0 ≤ tEnd then advanceJ t tEnd fuel (j + 1)
          else j) = j
    rw [if_neg (fun h => hj h.1)]

theorem foldl_fixed {β : Type} (f : LoopSt → β → LoopSt) (stF : LoopSt) :
    ∀ l : List β, (∀ i ∈ l, f stF i = stF) → l.foldl f stF = stF := by
  intro l
  induction l with
  | nil => intro _; rfl
  | cons i l ih =>
    intro hall
    rw [List.foldl_cons, hall i (List.mem_cons_self _ _)]
    exact ih (fun b hb => hall b (List.mem_cons_of_mem _ hb))

theorem loopStep_some (t v : List ℚ) (ui : ℚ) (st : LoopSt) (i : ℕ)
    (h : st.sigMax.isSome = true ∧ st.bestTEnd.isSome = true) :
    (loopStep t v ui st i).sigMax.isSome = true ∧
      (loopStep t v ui st i).bestTEnd.isSome = true := by
  unfold loopStep
  by_cases hc : (match st.sigMax with
      | none => true
      | some m => decide (m < windowInteg t v ui st.j i)) = true
  · rw [if_pos hc]
    exact ⟨rfl, rfl⟩
  · rw [if_neg hc]
    exact h

theorem loopStep_some_of_none (t v : List ℚ) (ui : ℚ) (st : LoopSt) (i : ℕ)
    (h : st.sigMax = none) :
    (loopStep t v ui st i).sigMax.isSome = true ∧
      (loopStep t v ui st i).bestTEnd.isSome = true := by
  unfold loopStep
  rw [h]
  rw [if_pos rfl]
  exact ⟨rfl, rfl⟩

theorem foldl_loopStep_some (t v : List ℚ) (ui : ℚ) (l : List ℕ) :
    ∀ st : LoopSt, st.sigMax.isSome = true ∧ st.bestTEnd.isSome = true →
      ((l.foldl (loopStep t v ui) st).sigMax.isSome = true ∧
        (l.foldl (loopStep t v ui) st).bestTEnd.isSome = true) := by
  induction l with
  | nil => intro st h; simpa using h
  | cons i l ih =>
    intro st h
    rw [List.foldl_cons]
    exact ih _ (loopStep_some t v ui st i h)

/-- Once the loop runs at least one iteration, the best window is set: the
initial `-inf` loses the first comparison unconditionally. -/
theorem sigLoop_some (t v : List ℚ) (ui : ℚ) (cnt : ℕ) (h : cnt ≠ 0) :
    (sigLoop t v ui cnt).sigMax.isSome = true ∧
      (sigLoop t v ui cnt).bestTEnd.isSome = true := by
  obtain ⟨m, rfl⟩ := Nat.exists_eq_succ_of_ne_zero h
  unfold sigLoop
  rw [List.range_eq_range', List.range'_succ, List.foldl_cons]
  exact foldl_loopStep_some t v ui _ _ (loopStep_some_of_none t v ui _ 0 rfl)

theorem finishCalc_not_isErr (t v : List ℚ) (fin : LoopSt)
    (h1 : fin.sigMax.isSome = true) (h2 : fin.bestTEnd.isSome = true) :
    isErr (finishCalc t v fin) = false := by
  obtain ⟨s, hs⟩ := Option.isSome_iff_exists.mp h1
  obtain ⟨te, hte⟩ := Option.isSome_iff_exists.mp h2
  unfold finishCalc
  rw [hs, hte]
  rfl

theorem countLE_ne_zero (t : List ℚ) (x a : ℚ) (ha : a ∈ t) (hax : a ≤ x) :
    countLE t x ≠ 0 := by
  unfold countLE
  intro h
  rw [List.length_eq_zero, List.filter_eq_nil_iff] at h
  exact (h a ha) (decide_eq_true hax)

theorem isErr_eq_false_iff {α : Type} (e : Except String α) :
    isErr e = false ↔ ∃ r, e = Except.ok r := by
  cases e with
  | error msg => simp [isErr]
  | ok r => simp [isErr]

/-- Once the span check has passed on a nonempty sorted array, no later
check can fail: `last_i ≥ 0` (the "no valid integration window" branch is
dead) and the loop leaves a best window, so the call succeeds. -/
theorem get_sig_isi_sorted_ok (t v : List ℚ) (ui : ℚ) (hne : t ≠ [])
    (hspan : ¬ (t.getD (t.length - 1) 0 - t.getD 0 0 < ui)) :
    isErr (get_sig_isi_sorted t v ui) = false := by
  have hcnt : countLE t (t.getD (t.length - 1) 0 - ui) ≠ 0 := by
    refine countLE_ne_zero t _ (t.getD 0 0) ?_ (by linarith [not_lt.mp hspan])
    obtain ⟨a, rest, rfl⟩ := List.exists_cons_of_ne_nil hne
    rw [List.getD_cons_zero]
    exact List.mem_cons_self _ _
  unfold get_sig_isi_sorted
  rw [if_neg (by simpa [List.isEmpty_iff] using hne), if_neg hspan, if_neg hcnt]
  exact finishCalc_not_isErr t v _ (sigLoop_some t v ui _ hcnt).1 (sigLoop_some t v ui _ hcnt).2

/-- C8: for a rectangular waveform — every voltage sample equal to a constant
`H ≥ 0` over sorted sample times spanning a positive range — with the unit
interval equal to the full span `t_last - t_first`, the call returns exactly
`sig = H·(t_last - t_first)` and `isi = 0` under exact arithmetic.  (Every
candidate start index carries the minimal time, so every candidate window
integrates to exactly `H·UI` and the first one, covering the whole capture,
wins.) -/
theorem sliding_window_rect (t : List ℚ) (H ui : ℚ) (hH : 0 ≤ H)
    (hsort : List.Sorted (· ≤ ·) t) (hne : t ≠ [])
    (hspan : t.getD 0 0 < t.getD (t.length - 1) 0)
    (hui : ui = t.getD (t.length - 1) 0 - t.getD 0 0) :
    get_sig_isi t (List.replicate t.length H) ui = Except.ok (H * ui, 0) := by
  have hn1 : 1 ≤ t.length := by
    have := List.length_pos.mpr hne
    omega
  have hui0 : 0 < ui := by
    rw [hui]
    linarith
  unfold get_sig_isi
  rw [if_neg (by simp), if_neg (not_le.mpr hui0)]
  rw [sortPairs_sorted_eq t (List.replicate t.length H) hsort (by simp)]
  rw [List.map_fst_zip _ _ (by simp), List.map_snd_zip _ _ (by simp)]
  unfold get_sig_isi_sorted
  rw [if_neg (by simpa [List.isEmpty_iff] using hne)]
  rw [if_neg (by rw [← hui]; exact lt_irrefl ui)]
  have harg : t.getD (t.length - 1) 0 - ui = t.getD 0 0 := by
    rw [hui]
    ring
  rw [harg]
  have hcnt_ne : countLE t (t.getD 0 0) ≠ 0 := by
    refine countLE_ne_zero t _ (t.getD 0 0) ?_ (le_refl _)
    obtain ⟨a, rest, rfl⟩ := List.exists_cons_of_ne_nil hne
    rw [List.getD_cons_zero]
    exact List.mem_cons_self _ _
  rw [if_neg hcnt_ne]
  have hti : ∀ i, i < countLE t (t.getD 0 0) → t.getD i 0 = t.getD 0 0 := by
    intro i hi
    have h1 := getD_le_of_lt_countLE (t.getD 0 0) t hsort i hi
    have h2 : t.getD 0 0 ≤ t.getD i 0 :=
      sorted_le_getD_le t hsort (Nat.zero_le i) (lt_of_lt_of_le hi (countLE_le_length t _))
    exact le_antisymm h1 h2
  have htEnd : t.getD 0 0 + ui = t.getD (t.length - 1) 0 := by
    rw [hui]
    ring
  have hadv0 : jAdv t ui 0 0 = t.length - 1 := by
    unfold jAdv
    rw [htEnd]
    exact advanceJ_reaches t _ (fun k hk => sorted_le_getD_last t hsort k hk) t.length 0
      (by omega) (by omega)
  have hinteg0 : windowInteg t (List.replicate t.length H) ui 0 0 = H * ui := by
    unfold windowInteg
    rw [hadv0, htEnd, (endCorrection_last t (List.replicate t.length H) _).1,
      trapAt_zero, trapAt_replicate t H (t.length - 1) (by omega), hui]
    ring
  have hintegi : ∀ i, i < countLE t (t.getD 0 0) →
      windowInteg t (List.replicate t.length H) ui (t.length - 1) i = H * ui := by
    intro i hi
    have hi_lt : i < t.length := lt_of_lt_of_le hi (countLE_le_length t _)
    unfold windowInteg jAdv
    rw [advanceJ_stay t _ (t.length - 1) (by omega) t.length]
    rw [(endCorrection_last t (List.replicate t.length H) _).1,
      trapAt_replicate t H (t.length - 1) (by omega),
      trapAt_replicate t H i hi_lt, hti i hi, hui]
    ring
  have hloop : sigLoop t (List.replicate t.length H) ui (countLE t (t.getD 0 0)) =
      ⟨t.length - 1, some (H * ui), 0, t.length - 1, some (t.getD 0 0 + ui)⟩ := by
    obtain ⟨m, hm⟩ := Nat.exists_eq_succ_of_ne_zero hcnt_ne
    unfold sigLoop
    rw [hm, List.range_eq_range', List.range'_succ, List.foldl_cons]
    have h1 : loopStep t (List.replicate t.length H) ui ⟨0, none, 0, 0, none⟩ 0 =
        ⟨t.length - 1, some (H * ui), 0, t.length - 1, some (t.getD 0 0 + ui)⟩ := by
      unfold loopStep
      rw [if_pos rfl]
      rw [show (⟨0, none, 0, 0, none⟩ : LoopSt).j = 0 from rfl]
      rw [hadv0, hinteg0]
    rw [h1]
    refine foldl_fixed _ _ _ ?_
    intro i hi
    have hi2 : i < countLE t (t.getD 0 0) := by
      rw [List.mem_range'_1] at hi
      omega
    unfold loopStep
    have hcond : (match (⟨t.length - 1, some (H * ui), 0, t.length - 1,
          some (t.getD 0 0 + ui)⟩ : LoopSt).sigMax with
        | none => true
        | some m => decide (m < windowInteg t (List.replicate t.length H) ui
            (⟨t.length - 1, some (H * ui), 0, t.length - 1,
              some (t.getD 0 0 + ui)⟩ : LoopSt).j i)) = false := by
      show decide (H * ui <
        windowInteg t (List.replicate t.length H) ui (t.length - 1) i) = false
      rw [hintegi i hi2]
      simp
    rw [if_neg (by rw [hcond]; exact Bool.false_ne_true)]
    show LoopSt.mk (jAdv t ui (t.length - 1) i) _ _ _ _ = _
    unfold jAdv
    rw [advanceJ_stay t _ (t.length - 1) (by omega) t.length]
  rw [hloop]
  unfold finishCalc
  show Except.ok _ = _
  rw [(endCorrection_last t (List.replicate t.length H) _).2, trapAbsAt_zero]
  norm_num

/-- Witness for C8 at the concrete rectangular waveform `t = [0, 1, 2]`,
`H = 2`, `UI = 2`. -/
theorem sliding_window_rect_witness :
    get_sig_isi [(0 : ℚ), 1, 2] (List.replicate 3 2) 2 = Except.ok (2 * 2, 0) :=
  sliding_window_rect [(0 : ℚ), 1, 2] 2 2 (by norm_num) (by decide) (by decide) (by decide)
    (by simp [List.getD_cons_succ, List.getD_cons_zero])

/-- C7 counterexample: on empty (1-D, equal-length) arrays with a positive
unit interval, none of the claim's three conditions holds, yet the call
raises — the unguarded `t[-1]` fails with an `IndexError` before the span
check can run. -/
theorem get_sig_isi_empty_counterexample :
    isErr (get_sig_isi ([] : List ℚ) [] 1) = true ∧ ¬ claimedErrCond [] [] 1 := by
  constructor
  · rfl
  · decide

/-- C7 amended: the call raises exactly when the arrays are not 1-D of equal
length, or the unit interval is non-positive, or the arrays are empty (the
unguarded `t[-1]` raises `IndexError`), or the sorted time span is strictly
smaller than the unit interval; and the later "no valid integration window"
error is unreachable on every input. -/
theorem get_sig_isi_error_classification (tl vl : List ℚ) (ui : ℚ) :
    (isErr (get_sig_isi tl vl ui) = true ↔
      claimedErrCond tl vl ui ∨ (tl = [] ∧ vl = [])) ∧
    get_sig_isi tl vl ui ≠
      Except.error "No valid integration window of length unit_interval" := by
  by_cases hlen : tl.length = vl.length
  case neg =>
    unfold get_sig_isi
    rw [if_pos hlen]
    refine ⟨iff_of_true rfl (Or.inl (Or.inl hlen)), ?_⟩
    intro h
    simp only [Except.error.injEq] at h
    exact absurd h (by decide)
  case pos =>
    by_cases hui : ui ≤ 0
    case pos =>
      unfold get_sig_isi
      rw [if_neg (fun h => h hlen), if_pos hui]
      refine ⟨iff_of_true rfl (Or.inl (Or.inr (Or.inl hui))), ?_⟩
      intro h
      simp only [Except.error.injEq] at h
      exact absurd h (by decide)
    case neg =>
      unfold get_sig_isi
      rw [if_neg (fun h => h hlen), if_neg hui]
      have hlt : ((sortPairs (tl.zip vl)).map Prod.fst).length = tl.length := by
        rw [List.length_map]
        show (List.insertionSort leFst (tl.zip vl)).length = tl.length
        rw [List.length_insertionSort, List.length_zip, hlen, min_self]
      by_cases hnil : tl = []
      case pos =>
        have hvnil : vl = [] := by
          rw [hnil] at hlen
          exact List.length_eq_zero.mp hlen.symm
        subst hnil
        subst hvnil
        refine ⟨iff_of_true rfl (Or.inr ⟨rfl, rfl⟩), ?_⟩
        intro h
        rw [show get_sig_isi_sorted ((sortPairs (List.zip ([] : List ℚ) [])).map Prod.fst)
            ((sortPairs (List.zip ([] : List ℚ) [])).map Prod.snd) ui =
            Except.error "IndexError" from rfl] at h
        simp only [Except.error.injEq] at h
        exact absurd h (by decide)
      case neg =>
        have htne : (sortPairs (tl.zip vl)).map Prod.fst ≠ [] := by
          intro h
          have h2 := congrArg List.length h
          rw [hlt] at h2
          exact hnil (List.length_eq_zero.mp (by simpa using h2))
        have hteq : (sortPairs (tl.zip vl)).map Prod.fst = List.insertionSort qLE tl := by
          have p1 : ((sortPairs (tl.zip vl)).map Prod.fst).Perm ((tl.zip vl).map Prod.fst) :=
            List.Perm.map Prod.fst (List.perm_insertionSort leFst (tl.zip vl))
          have p2 : (tl.zip vl).map Prod.fst = tl := List.map_fst_zip tl vl (le_of_eq hlen)
          have p3 : tl.Perm (List.insertionSort qLE tl) := (List.perm_insertionSort qLE tl).symm
          refine List.eq_of_perm_of_sorted (r := qLE) ((p2 ▸ p1).trans p3) ?_ ?_
          · exact List.Pairwise.map Prod.fst (fun a b hab => hab)
              (List.sorted_insertionSort leFst (tl.zip vl))
          · exact List.sorted_insertionSort qLE tl
        have hspan_eq : ((sortPairs (tl.zip vl)).map Prod.fst).getD
              (((sortPairs (tl.zip vl)).map Prod.fst).length - 1) 0 -
            ((sortPairs (tl.zip vl)).map Prod.fst).getD 0 0 = sortedSpan tl := by
          rw [hteq]
          rfl
        by_cases hsp : sortedSpan tl < ui
        case pos =>
          constructor
          · refine iff_of_true ?_ (Or.inl (Or.inr (Or.inr ⟨hnil, hsp⟩)))
            unfold get_sig_isi_sorted
            rw [if_neg (by simpa [List.isEmpty_iff] using htne),
              if_pos (by rw [hspan_eq]; exact hsp)]
            rfl
          · intro h
            unfold get_sig_isi_sorted at h
            rw [if_neg (by simpa [List.isEmpty_iff] using htne),
              if_pos (by rw [hspan_eq]; exact hsp)] at h
            simp only [Except.error.injEq] at h
            exact absurd h (by decide)
        case neg =>
          have hok := get_sig_isi_sorted_ok ((sortPairs (tl.zip vl)).map Prod.fst)
            ((sortPairs (tl.zip vl)).map Prod.snd) ui htne (by rw [hspan_eq]; exact hsp)
          constructor
          · refine iff_of_false (by simp [hok]) ?_
            rintro (hc | ⟨h1, h2⟩)
            · rcases hc with h | h | ⟨h1, h2⟩
              · exact h hlen
              · exact hui h
              · exact hsp h2
            · exact hnil h1
          · obtain ⟨r, hr⟩ := (isErr_eq_false_iff _).mp hok
            rw [hr]
            intro h
            exact Except.noConfusion h

/-- Witness for C7's amended classification at a concrete input (a two-sample
waveform with unit interval 1: no error condition holds and the call
succeeds). -/
theorem get_sig_isi_error_classification_witness :
    (isErr (get_sig_isi [(0 : ℚ), 1] [1, 1] 1) = true ↔
      claimedErrCond [(0 : ℚ), 1] [1, 1] 1 ∨
        (([(0 : ℚ), 1] : List ℚ) = [] ∧ ([(1 : ℚ), 1] : List ℚ) = [])) ∧
    get_sig_isi [(0 : ℚ), 1] [1, 1] 1 ≠
      Except.error "No valid integration window of length unit_interval" :=
  get_sig_isi_error_classification [(0 : ℚ), 1] [1, 1] 1

/-- Witness for C9 at a concrete no-network engine running two prune
computations. -/
theorem prune_warning_once_witness :
    (∀ p ∈ (run_ensures exStateNoNet
        [TxGroup.single exCtrlSingle, TxGroup.single exCtrlSingle]).1,
      p.2 = Finset.Icc 1 exStateNoNet.port_metadata.length) ∧
    (∀ tx0 rest0,
      ([TxGroup.single exCtrlSingle, TxGroup.single exCtrlSingle] : List TxGroup) =
        tx0 :: rest0 →
      ∃ tl, (run_ensures exStateNoNet
          [TxGroup.single exCtrlSingle, TxGroup.single exCtrlSingle]).1 =
        (true, Finset.Icc 1 exStateNoNet.port_metadata.length) :: tl ∧
        ∀ p ∈ tl, p.1 = false) :=
  prune_warning_once exStateNoNet [TxGroup.single exCtrlSingle, TxGroup.single exCtrlSingle]
    rfl rfl rfl rfl rfl rfl (by decide)

end CCT
